import Mathlib

/-
  Verification of the configuration-merging and template-rendering core of
  the mila-launch utility (src/launch.py), as a shallow embedding in Lean 4.

  Python values flowing through the core (YAML scalars, lists, dicts) are
  modelled by the inductive type `Val`; Python dicts become association
  lists with unique keys (uniqueness is a hypothesis where it matters,
  since Python dicts cannot hold duplicate keys).
-/

namespace MilaLaunch



/-- Characters used in quoting rules, written via code points so that the
    source stays free of quote-character literals. -/
def sq : String := String.singleton (Char.ofNat 39)

/-- The double-quote character as a one-character string. -/
def dq : String := String.singleton (Char.ofNat 34)

/-- A YAML/Python value: scalars (string, integer, boolean, null), lists and
    string-keyed dictionaries (association lists, insertion-ordered like
    Python dicts). -/
inductive Val where
  | vstr (s : String)
  | vnum (n : Int)
  | vbool (b : Bool)
  | vnull
  | vlist (xs : List Val)
  | vdict (entries : List (String × Val))
deriving Repr

open Val

/-- First-match lookup in an association list: Python `d[k]` / `k in d`. -/
def lookupKV (a : List (String × Val)) (k : String) : Option Val :=
  match a with
  | [] => none
  | (k1, v1) :: rest => if k1 = k then some v1 else lookupKV rest k

/-- Python dict assignment `d[k] = v`: replaces the value at an existing key
    in place (keeping its position), appends the key otherwise. -/
def setKey (a : List (String × Val)) (k : String) (v : Val) :
    List (String × Val) :=
  match a with
  | [] => [(k, v)]
  | (k1, v1) :: rest =>
      if k1 = k then (k, v) :: rest else (k1, v1) :: setKey rest k v

mutual
/-- Python `==` on values: structural, with bool/int numeric coercion
    (`True == 1`, `False == 0`), elementwise on lists, and key-set plus
    valuewise on dicts. -/
def pyEq : Val → Val → Bool
  | vstr a, vstr b => a = b
  | vnum a, vnum b => a = b
  | vbool a, vbool b => a = b
  | vbool a, vnum n => (if a then (1 : Int) else 0) = n
  | vnum n, vbool b => n = (if b then (1 : Int) else 0)
  | vnull, vnull => true
  | vlist xs, vlist ys => pyEqList xs ys
  | vdict xs, vdict ys => decide (xs.length = ys.length) && pyEqDict xs ys
  | _, _ => false
  termination_by a _ => sizeOf a

/-- Elementwise Python `==` on lists. -/
def pyEqList : List Val → List Val → Bool
  | [], [] => true
  | x :: xs, y :: ys => pyEq x y && pyEqList xs ys
  | _, _ => false
  termination_by xs _ => sizeOf xs

/-- For each entry of the first dict, the second dict holds a `==` value at
    the same key (with equal lengths this is Python dict equality). -/
def pyEqDict : List (String × Val) → List (String × Val) → Bool
  | [], _ => true
  | (k, v) :: rest, ys =>
      (match lookupKV ys k with
       | some w => pyEq v w
       | none => false) && pyEqDict rest ys
  termination_by xs _ => sizeOf xs
end

mutual
/-- Well-formedness of a value as Python produces it: every dict (at any
    depth) has pairwise-distinct keys. -/
def WFb : Val → Bool
  | vstr _ => true
  | vnum _ => true
  | vbool _ => true
  | vnull => true
  | vlist xs => WFbList xs
  | vdict es => decide (es.map Prod.fst).Nodup && WFbEntries es
  termination_by v => sizeOf v

def WFbList : List Val → Bool
  | [] => true
  | x :: xs => WFb x && WFbList xs
  termination_by xs => sizeOf xs

def WFbEntries : List (String × Val) → Bool
  | [] => true
  | (_, v) :: rest => WFb v && WFbEntries rest
  termination_by es => sizeOf es
end

mutual
/-- The recursive dict merge `deep_update(a, b)` of src/launch.py, written
    as a pure function (the Python top-level call deep-copies `a` and then
    updates it in place; the heap-level behaviour is modelled separately
    below).  For each key of `b` in order: if the key exists in `a` and both
    values are dicts, recurse; else if the values compare `==`, keep the
    base entry; else overwrite; keys absent from `a` are appended. -/
def deep_update : List (String × Val) → List (String × Val) →
    List (String × Val)
  | a, [] => a
  | a, (k, bv) :: rest => deep_update (deepUpdateEntry a k bv) rest
  termination_by _ b => sizeOf b
  decreasing_by
    all_goals simp_wf
    all_goals simp_arith

/-- One iteration of the `for key in b` loop body of `deep_update`. -/
def deepUpdateEntry (a : List (String × Val)) (k : String) (bv : Val) :
    List (String × Val) :=
  match lookupKV a k, bv with
  | some (vdict ad), vdict bd => setKey a k (vdict (deep_update ad bd))
  | some av, _ => if pyEq av bv then a else setKey a k bv
  | none, _ => a ++ [(k, bv)]
  termination_by sizeOf bv
  decreasing_by
    all_goals simp_wf
end

theorem lookupKV_setKey_self (a : List (String × Val)) (k : String) (v : Val) :
    lookupKV (setKey a k v) k = some v := by
  induction a with
  | nil => simp [setKey, lookupKV]
  | cons hd tl ih =>
      obtain ⟨k1, v1⟩ := hd
      by_cases h : k1 = k
      · subst h; simp [setKey, lookupKV]
      · simp [setKey, lookupKV, h, ih]

theorem lookupKV_setKey_ne (a : List (String × Val)) (k k1 : String)
    (v : Val) (h : k1 ≠ k) :
    lookupKV (setKey a k v) k1 = lookupKV a k1 := by
  have h2 : ¬ (k = k1) := fun h3 => h h3.symm
  induction a with
  | nil => simp [setKey, lookupKV, h2]
  | cons hd tl ih =>
      obtain ⟨k2, v2⟩ := hd
      by_cases h3 : k2 = k
      · subst h3; simp [setKey, lookupKV, h2]
      · simp [setKey, lookupKV, h3, ih]

theorem lookupKV_append_ne (a : List (String × Val)) (k k1 : String)
    (v : Val) (h : k1 ≠ k) :
    lookupKV (a ++ [(k, v)]) k1 = lookupKV a k1 := by
  have h2 : ¬ (k = k1) := fun h3 => h h3.symm
  induction a with
  | nil => simp [lookupKV, h2]
  | cons hd tl ih =>
      obtain ⟨k2, v2⟩ := hd
      by_cases h3 : k2 = k1 <;> simp [lookupKV, h3, ih]

theorem lookupKV_append_self (a : List (String × Val)) (k : String) (v : Val)
    (h : lookupKV a k = none) :
    lookupKV (a ++ [(k, v)]) k = some v := by
  induction a with
  | nil => simp [lookupKV]
  | cons hd tl ih =>
      obtain ⟨k2, v2⟩ := hd
      by_cases h2 : k2 = k
      · simp [lookupKV, h2] at h
      · simp [lookupKV, h2] at h ⊢; exact ih h

/-- The loop body of `deep_update` does not change lookups at other keys. -/
theorem deepUpdateEntry_lookup_ne (a : List (String × Val)) (k k1 : String)
    (bv : Val) (h : k1 ≠ k) :
    lookupKV (deepUpdateEntry a k bv) k1 = lookupKV a k1 := by
  rcases h2 : lookupKV a k with _ | av
  · simp only [deepUpdateEntry.eq_def, h2]
    exact lookupKV_append_ne a k k1 bv h
  · rcases av with s | n | b | _ | xs | ad <;>
      rcases bv with s2 | n2 | b2 | _ | xs2 | bd <;>
      simp only [deepUpdateEntry.eq_def, h2] <;>
      first
        | exact lookupKV_setKey_ne a k k1 _ h
        | (split <;> first | rfl | exact lookupKV_setKey_ne a k k1 _ h)

/-- What the loop body of `deep_update` leaves at the key it processes. -/
theorem deepUpdateEntry_lookup_self (a : List (String × Val)) (k : String)
    (bv : Val) :
    lookupKV (deepUpdateEntry a k bv) k =
      match lookupKV a k, bv with
      | some (Val.vdict ad), Val.vdict bd =>
          some (Val.vdict (deep_update ad bd))
      | some av, _ => if pyEq av bv then some av else some bv
      | none, _ => some bv := by
  rcases h2 : lookupKV a k with _ | av
  · simp only [deepUpdateEntry.eq_def, h2]
    exact lookupKV_append_self a k bv h2
  · rcases av with s | n | b | _ | xs | ad <;>
      rcases bv with s2 | n2 | b2 | _ | xs2 | bd <;>
      simp only [deepUpdateEntry.eq_def, h2] <;>
      first
        | exact lookupKV_setKey_self a k _
        | (split <;> first | exact h2 | exact lookupKV_setKey_self a k _)

/-- Keys that `override` does not mention keep their `base` binding. -/
theorem deep_update_lookup_notMentioned (b : List (String × Val)) :
    ∀ (a : List (String × Val)) (k : String),
      k ∉ b.map Prod.fst →
      lookupKV (deep_update a b) k = lookupKV a k := by
  induction b with
  | nil => intro a k _; rw [deep_update]
  | cons hd rest ih =>
      intro a k hk
      obtain ⟨k1, bv⟩ := hd
      simp only [List.map_cons, List.mem_cons] at hk
      push_neg at hk
      rw [deep_update, ih _ k hk.2,
        deepUpdateEntry_lookup_ne a k1 k bv hk.1]

/-- For a key that `override` does mention, the merge result at that key is
    decided by the loop body at that key. -/
theorem deep_update_lookup_mentioned (b : List (String × Val)) :
    ∀ (a : List (String × Val)) (k : String) (bv : Val),
      (b.map Prod.fst).Nodup →
      lookupKV b k = some bv →
      lookupKV (deep_update a b) k = lookupKV (deepUpdateEntry a k bv) k := by
  induction b with
  | nil => intro a k bv _ h; simp [lookupKV] at h
  | cons hd rest ih =>
      intro a k bv hnd hb
      obtain ⟨k1, bv1⟩ := hd
      simp only [List.map_cons, List.nodup_cons] at hnd
      by_cases h1 : k1 = k
      · subst h1
        rw [lookupKV, if_pos rfl] at hb
        obtain rfl := Option.some.inj hb
        rw [deep_update,
          deep_update_lookup_notMentioned rest (deepUpdateEntry a k1 bv1) k1
            hnd.1]
      · simp only [lookupKV, if_neg h1] at hb
        rw [deep_update, ih _ k bv hnd.2 hb]
        have hpre : lookupKV (deepUpdateEntry a k1 bv1) k = lookupKV a k :=
          deepUpdateEntry_lookup_ne a k1 k bv1 (fun h3 => h1 h3.symm)
        rw [deepUpdateEntry_lookup_self, deepUpdateEntry_lookup_self, hpre]

theorem lookupKV_eq_none_iff (a : List (String × Val)) (k : String) :
    lookupKV a k = none ↔ k ∉ a.map Prod.fst := by
  induction a with
  | nil => simp [lookupKV]
  | cons hd tl ih =>
      obtain ⟨k1, v1⟩ := hd
      by_cases h : k1 = k
      · subst h; simp [lookupKV]
      · simp [lookupKV, h, ih, Ne.symm h]

theorem lookupKV_mem_of_nodup (a : List (String × Val)) (k : String) (v : Val)
    (hnd : (a.map Prod.fst).Nodup) (hm : (k, v) ∈ a) :
    lookupKV a k = some v := by
  induction a with
  | nil => simp at hm
  | cons hd tl ih =>
      obtain ⟨k1, v1⟩ := hd
      simp only [List.map_cons, List.nodup_cons] at hnd
      rcases List.mem_cons.1 hm with h | h
      · cases h
        simp [lookupKV]
      · have hne : ¬ (k1 = k) := by
          intro h2
          subst h2
          exact hnd.1 (List.mem_map.2 ⟨(k1, v), h, rfl⟩)
        simp [lookupKV, hne, ih hnd.2 h]

/-- C1: the recursive override semantics of `deep_update` (merge), stated
    key-by-key: with `B` a Python dict (unique keys), a key absent from `B`
    keeps its `A` binding, a key absent from `A` gets `B`'s value, a key
    mapping to dicts on both sides gets the recursive merge, a key with
    `==`-equal values keeps the base value, and any other conflicting key
    gets the override's value. -/
theorem C1_deep_update_merge_semantics
    (A B : List (String × Val)) (k : String)
    (hB : (B.map Prod.fst).Nodup) :
    (lookupKV B k = none →
       lookupKV (deep_update A B) k = lookupKV A k)
    ∧ (∀ vb, lookupKV A k = none → lookupKV B k = some vb →
       lookupKV (deep_update A B) k = some vb)
    ∧ (∀ da db, lookupKV A k = some (Val.vdict da) →
       lookupKV B k = some (Val.vdict db) →
       lookupKV (deep_update A B) k = some (Val.vdict (deep_update da db)))
    ∧ (∀ va vb, lookupKV A k = some va → lookupKV B k = some vb →
       (∀ da db, va = Val.vdict da → vb = Val.vdict db → False) →
       pyEq va vb = true →
       lookupKV (deep_update A B) k = some va)
    ∧ (∀ va vb, lookupKV A k = some va → lookupKV B k = some vb →
       (∀ da db, va = Val.vdict da → vb = Val.vdict db → False) →
       pyEq va vb = false →
       lookupKV (deep_update A B) k = some vb) := by
  refine ⟨?_, ?_, ?_, ?_, ?_⟩
  · intro hnone
    exact deep_update_lookup_notMentioned B A k
      ((lookupKV_eq_none_iff B k).1 hnone)
  · intro vb hA hB2
    rw [deep_update_lookup_mentioned B A k vb hB hB2,
      deepUpdateEntry_lookup_self, hA]
  · intro da db hA hB2
    rw [deep_update_lookup_mentioned B A k _ hB hB2,
      deepUpdateEntry_lookup_self, hA]
  · intro va vb hA hB2 hnd2 hpy
    rw [deep_update_lookup_mentioned B A k vb hB hB2,
      deepUpdateEntry_lookup_self, hA]
    rcases va with s|n|b|_|xs|da <;> rcases vb with s2|n2|b2|_|xs2|db <;>
      first
        | exact (hnd2 _ _ rfl rfl).elim
        | simp [hpy]
  · intro va vb hA hB2 hnd2 hpy
    rw [deep_update_lookup_mentioned B A k vb hB hB2,
      deepUpdateEntry_lookup_self, hA]
    rcases va with s|n|b|_|xs|da <;> rcases vb with s2|n2|b2|_|xs2|db <;>
      first
        | exact (hnd2 _ _ rfl rfl).elim
        | simp [hpy]

theorem pyEqList_refl (xs : List Val) (h : ∀ x ∈ xs, pyEq x x = true) :
    pyEqList xs xs = true := by
  induction xs with
  | nil => rw [pyEqList]
  | cons x rest ih =>
      rw [pyEqList, h x (List.mem_cons_self x rest),
        ih (fun y hy => h y (List.mem_cons_of_mem x hy))]
      rfl

theorem pyEqDict_of_forall (xs ys : List (String × Val))
    (h : ∀ kv ∈ xs, ∃ w, lookupKV ys kv.1 = some w ∧ pyEq kv.2 w = true) :
    pyEqDict xs ys = true := by
  induction xs with
  | nil => rw [pyEqDict]
  | cons kv rest ih =>
      obtain ⟨k, v⟩ := kv
      obtain ⟨w, hw, hpy⟩ := h (k, v) (List.mem_cons_self _ rest)
      rw [pyEqDict, hw,
        ih (fun kv2 h2 => h kv2 (List.mem_cons_of_mem _ h2))]
      simp [hpy]

theorem WFb_vdict_parts (es : List (String × Val))
    (h : WFb (Val.vdict es) = true) :
    (es.map Prod.fst).Nodup ∧ WFbEntries es = true := by
  rw [WFb] at h
  simpa using h

theorem WFbEntries_mem (es : List (String × Val)) (k : String) (v : Val)
    (h : WFbEntries es = true) (hm : (k, v) ∈ es) : WFb v = true := by
  induction es with
  | nil => simp at hm
  | cons hd rest ih =>
      obtain ⟨k1, v1⟩ := hd
      rw [WFbEntries, Bool.and_eq_true] at h
      rcases List.mem_cons.1 hm with h2 | h2
      · cases h2; exact h.1
      · exact ih h.2 h2

theorem WFbList_mem (xs : List Val) (x : Val)
    (h : WFbList xs = true) (hm : x ∈ xs) : WFb x = true := by
  induction xs with
  | nil => simp at hm
  | cons hd rest ih =>
      rw [WFbList, Bool.and_eq_true] at h
      rcases List.mem_cons.1 hm with h2 | h2
      · cases h2; exact h.1
      · exact ih h.2 h2

/-- Python `==` is reflexive on well-formed values. -/
theorem pyEq_refl_aux :
    ∀ (n : Nat) (v : Val), sizeOf v ≤ n → WFb v = true → pyEq v v = true := by
  intro n
  induction n with
  | zero => intro v h _; exfalso; cases v <;> simp_arith at h
  | succ n ih =>
      intro v hs hw
      cases v with
      | vstr s => simp [pyEq]
      | vnum m => simp [pyEq]
      | vbool b => simp [pyEq]
      | vnull => rw [pyEq]
      | vlist xs =>
          rw [pyEq]
          refine pyEqList_refl xs (fun x hx => ?_)
          have hlt := List.sizeOf_lt_of_mem hx
          have hsz : sizeOf (Val.vlist xs) = 1 + sizeOf xs := by simp_arith
          refine ih x (by omega) ?_
          rw [WFb] at hw
          exact WFbList_mem xs x hw hx
      | vdict es =>
          obtain ⟨hnd, hents⟩ := WFb_vdict_parts es hw
          rw [pyEq, Bool.and_eq_true]
          refine ⟨by simp, pyEqDict_of_forall es es (fun kv hkv => ?_)⟩
          refine ⟨kv.2, lookupKV_mem_of_nodup es kv.1 kv.2 hnd hkv, ?_⟩
          have hlt := List.sizeOf_lt_of_mem hkv
          have h2 : sizeOf kv.2 < sizeOf kv := by
            obtain ⟨k, v2⟩ := kv; simp_arith
          have hsz : sizeOf (Val.vdict es) = 1 + sizeOf es := by simp_arith
          exact ih kv.2 (by omega) (WFbEntries_mem es kv.1 kv.2 hents hkv)

theorem setKey_eq_of_lookup (a : List (String × Val)) (k : String) (v : Val)
    (h : lookupKV a k = some v) : setKey a k v = a := by
  induction a with
  | nil => simp [lookupKV] at h
  | cons hd rest ih =>
      obtain ⟨k1, v1⟩ := hd
      by_cases h2 : k1 = k
      · subst h2
        rw [lookupKV, if_pos rfl] at h
        obtain rfl := Option.some.inj h
        simp [setKey]
      · rw [lookupKV, if_neg h2] at h
        simp [setKey, h2, ih h]

/-- Merging a dict with itself is the identity, given that every entry of
    `ents` is the (unique) binding of its key in `a`. -/
theorem deep_update_self_loop :
    ∀ (ents a : List (String × Val)),
      (∀ kv ∈ ents, lookupKV a kv.1 = some kv.2) →
      (∀ k ad, (k, Val.vdict ad) ∈ ents → deep_update ad ad = ad) →
      (∀ kv ∈ ents, pyEq kv.2 kv.2 = true) →
      deep_update a ents = a := by
  intro ents
  induction ents with
  | nil => intro a _ _ _; rw [deep_update]
  | cons kv rest ih =>
      intro a h1 h2 h3
      obtain ⟨k, bv⟩ := kv
      have hlk : lookupKV a k = some bv := h1 (k, bv) (List.mem_cons_self _ _)
      have hDUE : deepUpdateEntry a k bv = a := by
        cases bv with
        | vdict bd =>
            rw [deepUpdateEntry.eq_def, hlk]
            simp only [h2 k bd (List.mem_cons_self _ _)]
            exact setKey_eq_of_lookup a k _ hlk
        | vstr s =>
            rw [deepUpdateEntry.eq_def, hlk]
            simp [h3 (k, Val.vstr s) (List.mem_cons_self _ _)]
        | vnum m =>
            rw [deepUpdateEntry.eq_def, hlk]
            simp [h3 (k, Val.vnum m) (List.mem_cons_self _ _)]
        | vbool b =>
            rw [deepUpdateEntry.eq_def, hlk]
            simp [h3 (k, Val.vbool b) (List.mem_cons_self _ _)]
        | vnull =>
            rw [deepUpdateEntry.eq_def, hlk]
            simp [h3 (k, Val.vnull) (List.mem_cons_self _ _)]
        | vlist xs =>
            rw [deepUpdateEntry.eq_def, hlk]
            simp [h3 (k, Val.vlist xs) (List.mem_cons_self _ _)]
      rw [deep_update, hDUE]
      exact ih a (fun kv hm => h1 kv (List.mem_cons_of_mem _ hm))
        (fun k2 ad hm => h2 k2 ad (List.mem_cons_of_mem _ hm))
        (fun kv hm => h3 kv (List.mem_cons_of_mem _ hm))

theorem deep_update_self_aux :
    ∀ (n : Nat) (a : List (String × Val)), sizeOf a ≤ n →
      WFb (Val.vdict a) = true → deep_update a a = a := by
  intro n
  induction n with
  | zero => intro a h _; exfalso; cases a <;> simp_arith at h
  | succ n ih =>
      intro a hs hw
      obtain ⟨hnd, hents⟩ := WFb_vdict_parts a hw
      refine deep_update_self_loop a a (fun kv hm => ?_) (fun k ad hm => ?_)
        (fun kv hm => ?_)
      · exact lookupKV_mem_of_nodup a kv.1 kv.2 hnd hm
      · have hlt := List.sizeOf_lt_of_mem hm
        have h2 : sizeOf ad < sizeOf (k, Val.vdict ad) := by simp_arith
        refine ih ad (by omega) ?_
        exact WFbEntries_mem a k (Val.vdict ad) hents hm
      · exact pyEq_refl_aux (sizeOf kv.2) kv.2 le_rfl
          (WFbEntries_mem a kv.1 kv.2 hents hm)

/-- C8: merge is idempotent: for every well-formed configuration map `A`
    (every nested dict has unique keys, as Python dicts do),
    `deep_update A A = A`. -/
theorem C8_deep_update_idempotent (A : List (String × Val))
    (h : WFb (Val.vdict A) = true) : deep_update A A = A :=
  deep_update_self_aux (sizeOf A) A le_rfl h

/-- Witness for C1 at a concrete input: base has keys x (conflicting) and
    p (base-only); override sets x to 2; the merge keeps p and takes
    override's x. -/
theorem C1_deep_update_merge_semantics_witness :
    lookupKV (deep_update [("x", Val.vstr "1"), ("p", Val.vstr "q")]
        [("x", Val.vstr "2")]) "x" = some (Val.vstr "2")
    ∧ lookupKV (deep_update [("x", Val.vstr "1"), ("p", Val.vstr "q")]
        [("x", Val.vstr "2")]) "p" = some (Val.vstr "q") := by
  have hx := C1_deep_update_merge_semantics
    [("x", Val.vstr "1"), ("p", Val.vstr "q")] [("x", Val.vstr "2")] "x"
    (by simp)
  have hp := C1_deep_update_merge_semantics
    [("x", Val.vstr "1"), ("p", Val.vstr "q")] [("x", Val.vstr "2")] "p"
    (by simp)
  refine ⟨?_, ?_⟩
  · refine hx.2.2.2.2 (Val.vstr "1") (Val.vstr "2") (by simp [lookupKV])
      (by simp [lookupKV]) (fun da db hda _ => by cases hda) (by simp [pyEq])
  · rw [hp.1 (by simp [lookupKV])]
    simp [lookupKV]

/-- Witness for C8 at a concrete nested configuration map. -/
theorem C8_deep_update_idempotent_witness :
    deep_update [("a", Val.vdict [("x", Val.vnum 1)]), ("b", Val.vstr "s")]
        [("a", Val.vdict [("x", Val.vnum 1)]), ("b", Val.vstr "s")]
      = [("a", Val.vdict [("x", Val.vnum 1)]), ("b", Val.vstr "s")] :=
  C8_deep_update_idempotent _ (by simp [WFb, WFbEntries, WFbList])

/-! ### Template post-processing: `clean_sbatch_params` (src/launch.py)

Strings are handled at the character-list level so that every function is
structurally recursive and evaluates by `rfl`/`simp`. -/

/-- The linefeed character. -/
def nlChar : Char := Char.ofNat 10

/-- The carriage-return character. -/
def crChar : Char := Char.ofNat 13

/-- The equals-sign character. -/
def eqChar : Char := Char.ofNat 61

/-- Line-boundary characters of Python `str.splitlines`. -/
def isLineBoundary (c : Char) : Bool :=
  c = nlChar || c = crChar || c = Char.ofNat 11 || c = Char.ofNat 12 ||
  c = Char.ofNat 28 || c = Char.ofNat 29 || c = Char.ofNat 30 ||
  c = Char.ofNat 133 || c = Char.ofNat 8232 || c = Char.ofNat 8233

/-- Whitespace characters recognised by Python `str.strip()` (the common
    set; exotic Unicode space code points are not used by sbatch files). -/
def isPySpace (c : Char) : Bool :=
  c = Char.ofNat 32 || c = Char.ofNat 9 || isLineBoundary c ||
  c = Char.ofNat 160

/-- Python `str.splitlines` on character lists: split at every line
    boundary, treating a CR-LF pair as a single boundary, and do not emit
    a final empty line for a trailing boundary. -/
def splitlinesAux : List Char → List Char → List (List Char)
  | [], acc => if acc.isEmpty then [] else [acc.reverse]
  | [c1], acc =>
      if isLineBoundary c1 then [acc.reverse]
      else [(c1 :: acc).reverse]
  | c1 :: c2 :: rest, acc =>
      if c1 = crChar && c2 = nlChar then
        acc.reverse :: splitlinesAux rest []
      else if isLineBoundary c1 then
        acc.reverse :: splitlinesAux (c2 :: rest) []
      else
        splitlinesAux (c2 :: rest) (c1 :: acc)

/-- Python `"\n".join` on character-list lines. -/
def joinLinesAux : List (List Char) → List Char
  | [] => []
  | [l] => l
  | l :: l2 :: rest => l ++ nlChar :: joinLinesAux (l2 :: rest)

/-- Python `s.split(sep)` for a one-character separator. -/
def splitOnCharAux (c0 : Char) : List Char → List Char → List (List Char)
  | [], acc => [acc.reverse]
  | c :: rest, acc =>
      if c = c0 then acc.reverse :: splitOnCharAux c0 rest []
      else splitOnCharAux c0 rest (c :: acc)

/-- Python `str.strip()` on character lists. -/
def pyStripChars (l : List Char) : List Char :=
  ((l.dropWhile isPySpace).reverse.dropWhile isPySpace).reverse

/-- The scheduler-directive prefix `#SBATCH` as characters. -/
def sbatchPrefixChars : List Char := "#SBATCH".data

/-- The per-line keep test of `clean_sbatch_params`: a line is kept unless
    it starts with `#SBATCH`, contains an `=`, and `line.split("=")[1]`
    is empty after stripping whitespace. -/
def keepLineChars (line : List Char) : Bool :=
  if ¬ sbatchPrefixChars.isPrefixOf line then true
  else if ¬ line.contains eqChar then true
  else
    match splitOnCharAux eqChar line [] with
    | _ :: f1 :: _ => ¬ (pyStripChars f1).isEmpty
    | _ => true

/-- `clean_sbatch_params(templated)` of src/launch.py: split into lines,
    keep the lines passing `keepLineChars`, and re-join with newlines. -/
def clean_sbatch_params (templated : String) : String :=
  String.mk (joinLinesAux ((splitlinesAux templated.data []).filter
    keepLineChars))

/-- The keep test as the claim words it: a line is dropped exactly when it
    starts with `#SBATCH`, contains `=`, and the whole portion after the
    first `=` is empty or whitespace-only. -/
def keepLineClaim (line : List Char) : Bool :=
  if ¬ sbatchPrefixChars.isPrefixOf line then true
  else if ¬ line.contains eqChar then true
  else
    ¬ (pyStripChars ((line.dropWhile (fun c => c ≠ eqChar)).drop 1)).isEmpty

/-- `clean_sbatch_params` as described by the claim. -/
def clean_sbatch_params_claim (templated : String) : String :=
  String.mk (joinLinesAux ((splitlinesAux templated.data []).filter
    keepLineClaim))

theorem splitOnCharAux_spec (c0 : Char) :
    ∀ (l acc : List Char),
      splitOnCharAux c0 l acc =
        match l.dropWhile (fun c => c != c0) with
        | [] => [acc.reverse ++ l]
        | _ :: rest =>
            (acc.reverse ++ l.takeWhile (fun c => c != c0)) ::
              splitOnCharAux c0 rest [] := by
  intro l
  induction l with
  | nil => intro acc; simp [splitOnCharAux]
  | cons c rest ih =>
      intro acc
      by_cases h : c = c0
      · subst h
        simp [splitOnCharAux]
      · rw [splitOnCharAux, if_neg h, ih (c :: acc)]
        simp [List.dropWhile_cons, List.takeWhile_cons, h]

theorem dropWhile_forall_iff (p : Char → Bool) (l : List Char) :
    (∀ c ∈ l.dropWhile p, p c = true) ↔ (∀ c ∈ l, p c = true) := by
  induction l with
  | nil => simp
  | cons c rest ih =>
      by_cases h : p c
      · simp [List.dropWhile_cons, h, ih]
      · simp [List.dropWhile_cons, h]

theorem pyStripChars_eq_nil_iff (l : List Char) :
    pyStripChars l = [] ↔ ∀ c ∈ l, isPySpace c = true := by
  rw [pyStripChars]
  simp only [List.reverse_eq_nil_iff, List.dropWhile_eq_nil_iff,
    List.mem_reverse]
  exact dropWhile_forall_iff isPySpace l

/-- The keep test as the amended claim words it: a line is dropped exactly
    when it starts with `#SBATCH`, contains `=`, and the span strictly
    between the first `=` and the next `=` (or the end of the line) is
    empty or whitespace-only. -/
def keepLineAmended (line : List Char) : Bool :=
  ¬ (sbatchPrefixChars.isPrefixOf line && line.contains eqChar &&
     (((line.dropWhile (fun c => c != eqChar)).drop 1).takeWhile
        (fun c => c != eqChar)).all isPySpace)

theorem splitOnCharAux_head (c0 : Char) (l : List Char) :
    ∃ tail, splitOnCharAux c0 l [] =
      (l.takeWhile (fun c => c != c0)) :: tail := by
  rw [splitOnCharAux_spec]
  rcases hd : l.dropWhile (fun c => c != c0) with _ | ⟨d, rest⟩
  · refine ⟨[], ?_⟩
    rw [List.dropWhile_eq_nil_iff] at hd
    simp [List.takeWhile_eq_self_iff.2 hd]
  · exact ⟨splitOnCharAux c0 rest [], by simp⟩

theorem pyStripChars_isEmpty (l : List Char) :
    (pyStripChars l).isEmpty = l.all isPySpace := by
  rw [Bool.eq_iff_iff]
  simp [List.isEmpty_iff, pyStripChars_eq_nil_iff, List.all_eq_true]

theorem splitOnCharAux_first_two (c0 d : Char) (l rest2 : List Char)
    (h : l.dropWhile (fun c => c != c0) = d :: rest2) :
    ∃ tail, splitOnCharAux c0 l [] =
      (l.takeWhile (fun c => c != c0)) ::
        (rest2.takeWhile (fun c => c != c0)) :: tail := by
  obtain ⟨t2, h2⟩ := splitOnCharAux_head c0 rest2
  refine ⟨t2, ?_⟩
  rw [splitOnCharAux_spec, h]
  simp [h2]

theorem keepLineChars_eq_amended (line : List Char) :
    keepLineChars line = keepLineAmended line := by
  rw [keepLineChars, keepLineAmended]
  by_cases h1 : sbatchPrefixChars.isPrefixOf line
  · by_cases h2 : line.contains eqChar
    · simp only [h1, h2, not_true, if_neg, Bool.true_and, if_false]
      have hne : line.dropWhile (fun c => c != eqChar) ≠ [] := by
        rw [Ne, List.dropWhile_eq_nil_iff]
        intro hall
        have hmem : eqChar ∈ line := by
          simpa using h2
        simpa using hall eqChar hmem
      obtain ⟨d, rest2, hd⟩ := List.exists_cons_of_ne_nil hne
      obtain ⟨tail2, hs⟩ := splitOnCharAux_first_two eqChar d line rest2 hd
      rw [hs, hd]
      simp [pyStripChars_isEmpty]
    · have h2b : eqChar ∉ line := by simpa using h2
      simp [h1, h2b]
  · simp [h1]

theorem mem_of_getLastQ (l : List Char) (c : Char) (h : l.getLast? = some c) :
    c ∈ l := by
  rcases l with _ | ⟨x, xs⟩
  · simp at h
  · rw [List.getLast?_eq_getLast _ (by simp)] at h
    exact (Option.some.inj h) ▸ List.getLast_mem _

theorem nl_not_cr : ¬ (nlChar = crChar) := by decide

theorem nl_boundary : isLineBoundary nlChar = true := by decide

theorem not_cr_of_not_boundary (c : Char) (h : isLineBoundary c = false) :
    ¬ (c = crChar) := by
  intro hc
  subst hc
  simp [isLineBoundary] at h

/-- Lines produced by `splitlinesAux` contain no line-boundary characters. -/
theorem splitlinesAux_boundary_free :
    ∀ (cs acc : List Char), (∀ c ∈ acc, isLineBoundary c = false) →
      ∀ l ∈ splitlinesAux cs acc, ∀ c ∈ l, isLineBoundary c = false := by
  intro cs acc
  induction cs, acc using splitlinesAux.induct with
  | case1 acc hacc =>
      intro _ l hl
      simp [splitlinesAux, hacc] at hl
  | case2 acc hacc =>
      intro h l hl
      rw [splitlinesAux, if_neg hacc] at hl
      obtain rfl := List.mem_singleton.1 hl
      intro c hc
      exact h c (List.mem_reverse.1 hc)
  | case3 c1 acc hb =>
      intro h l hl
      rw [splitlinesAux, if_pos hb] at hl
      obtain rfl := List.mem_singleton.1 hl
      intro c hc
      exact h c (List.mem_reverse.1 hc)
  | case4 c1 acc hb =>
      intro h l hl
      rw [splitlinesAux, if_neg hb] at hl
      obtain rfl := List.mem_singleton.1 hl
      intro c hc
      rcases List.mem_cons.1 (List.mem_reverse.1 hc) with rfl | hc2
      · exact Bool.not_eq_true _ ▸ (by simpa using hb)
      · exact h c hc2
  | case5 c1 c2 rest acc hcr ih =>
      intro h l hl
      rw [splitlinesAux, if_pos hcr] at hl
      rcases List.mem_cons.1 hl with rfl | hl2
      · intro c hc; exact h c (List.mem_reverse.1 hc)
      · exact ih (by simp) l hl2
  | case6 c1 c2 rest acc hcr hb ih =>
      intro h l hl
      rw [splitlinesAux, if_neg hcr, if_pos hb] at hl
      rcases List.mem_cons.1 hl with rfl | hl2
      · intro c hc; exact h c (List.mem_reverse.1 hc)
      · exact ih (by simp) l hl2
  | case7 c1 c2 rest acc hcr hb ih =>
      intro h l hl
      rw [splitlinesAux, if_neg hcr, if_neg hb] at hl
      refine ih ?_ l hl
      intro c hc
      rcases List.mem_cons.1 hc with rfl | hc2
      · exact Bool.not_eq_true _ ▸ (by simpa using hb)
      · exact h c hc2

/-- On boundary-free input, `splitlinesAux` yields the single accumulated
    line (or nothing when it is empty). -/
theorem splitlinesAux_no_boundary :
    ∀ (l acc : List Char), (∀ c ∈ l, isLineBoundary c = false) →
      splitlinesAux l acc =
        if (acc.reverse ++ l).isEmpty then [] else [acc.reverse ++ l] := by
  intro l
  induction l with
  | nil => intro acc _; simp [splitlinesAux, List.isEmpty_iff]
  | cons c rest ih =>
      intro acc h
      have hc : isLineBoundary c = false := h c (List.mem_cons_self _ _)
      rcases rest with _ | ⟨c2, rest2⟩
      · rw [splitlinesAux, if_neg (by simp [hc])]
        simp
      · rw [splitlinesAux,
          if_neg (by simp [not_cr_of_not_boundary c hc]),
          if_neg (by simp [hc]),
          ih (c :: acc) (fun c3 h3 => h c3 (List.mem_cons_of_mem _ h3))]
        simp

/-- Splitting after appending a newline and a tail: the accumulated line is
    emitted and splitting continues on the tail. -/
theorem splitlinesAux_append_nl :
    ∀ (l tail acc : List Char), (∀ c ∈ l, isLineBoundary c = false) →
      splitlinesAux (l ++ nlChar :: tail) acc =
        (acc.reverse ++ l) :: splitlinesAux tail [] := by
  intro l
  induction l with
  | nil =>
      intro tail acc _
      rcases tail with _ | ⟨t, ts⟩
      · have h1 : splitlinesAux [nlChar] acc = [acc.reverse] := by
          rw [splitlinesAux, if_pos nl_boundary]
        have h2 : splitlinesAux ([] : List Char) [] = [] := by
          rw [splitlinesAux]; simp
        rw [List.nil_append, h1, h2]
        simp
      · have h1 : splitlinesAux (nlChar :: t :: ts) acc
            = acc.reverse :: splitlinesAux (t :: ts) [] := by
          rw [splitlinesAux, if_neg (by simp [nl_not_cr]),
            if_pos nl_boundary]
        rw [List.nil_append, h1]
        simp
  | cons c l2 ih =>
      intro tail acc h
      have hc : isLineBoundary c = false := h c (List.mem_cons_self _ _)
      rcases he : l2 ++ nlChar :: tail with _ | ⟨c2, r2⟩
      · simp at he
      · rw [List.cons_append, he, splitlinesAux,
          if_neg (by simp [not_cr_of_not_boundary c hc]),
          if_neg (by simp [hc]), ← he,
          ih tail (c :: acc) (fun c3 h3 => h c3 (List.mem_cons_of_mem _ h3))]
        simp

/-- Removes a trailing empty line, as re-splitting a joined text does. -/
def dropLastEmptyLines (M : List (List Char)) : List (List Char) :=
  if M.getLast? = some [] then M.dropLast else M

theorem splitlines_join :
    ∀ (M : List (List Char)),
      (∀ l ∈ M, ∀ c ∈ l, isLineBoundary c = false) →
      splitlinesAux (joinLinesAux M) [] = dropLastEmptyLines M := by
  intro M
  induction M with
  | nil => intro _; simp [joinLinesAux, splitlinesAux, dropLastEmptyLines]
  | cons l M2 ih =>
      intro h
      rcases M2 with _ | ⟨l2, rest⟩
      · rw [joinLinesAux,
          splitlinesAux_no_boundary l [] (h l (List.mem_cons_self _ _))]
        by_cases hl : l = [] <;>
          simp [dropLastEmptyLines, hl]
      · rw [joinLinesAux,
          splitlinesAux_append_nl l _ [] (h l (List.mem_cons_self _ _)),
          ih (fun l3 h3 => h l3 (List.mem_cons_of_mem _ h3))]
        rw [dropLastEmptyLines, dropLastEmptyLines, List.getLast?_cons_cons]
        by_cases hlast : (l2 :: rest).getLast? = some ([] : List Char) <;>
          simp [hlast, List.dropLast]

/-- Drops a single trailing newline character when present. -/
def trimNLChars (l : List Char) : List Char :=
  if l.getLast? = some nlChar then l.dropLast else l

/-- String form of `trimNLChars`: removes one trailing newline. -/
def trimTrailingNewline (s : String) : String := String.mk (trimNLChars s.data)

theorem joinLinesAux_eq_nil_iff (M : List (List Char)) :
    joinLinesAux M = [] ↔ M = [] ∨ M = [[]] := by
  rcases M with _ | ⟨l, _ | ⟨l2, rest⟩⟩ <;> simp [joinLinesAux]

theorem joinLinesAux_cons_ne (l : List Char) (M : List (List Char))
    (h : M ≠ []) : joinLinesAux (l :: M) = l ++ nlChar :: joinLinesAux M := by
  rcases M with _ | ⟨l2, rest⟩
  · exact absurd rfl h
  · rw [joinLinesAux]

theorem dropLastEmptyLines_cons_cons (l l2 : List Char)
    (rest : List (List Char)) :
    dropLastEmptyLines (l :: l2 :: rest)
      = l :: dropLastEmptyLines (l2 :: rest) := by
  rw [dropLastEmptyLines, dropLastEmptyLines, List.getLast?_cons_cons]
  by_cases h : (l2 :: rest).getLast? = some ([] : List Char) <;>
    simp [h, List.dropLast]

theorem trimNL_append (l t : List Char) (ht : t ≠ []) :
    trimNLChars (l ++ nlChar :: t) = l ++ nlChar :: trimNLChars t := by
  rcases t with _ | ⟨t1, ts⟩
  · exact absurd rfl ht
  · by_cases hl : (t1 :: ts).getLast? = some nlChar <;>
      simp [trimNLChars, hl,
        List.getLast?_append_of_ne_nil l (show nlChar :: t1 :: ts ≠ [] by simp),
        List.getLast?_cons_cons,
        List.dropLast_append_of_ne_nil l (show nlChar :: t1 :: ts ≠ [] by simp),
        List.dropLast]

theorem joinLines_dropLastEmpty :
    ∀ (M : List (List Char)),
      (∀ l ∈ M, ∀ c ∈ l, isLineBoundary c = false) →
      joinLinesAux (dropLastEmptyLines M) = trimNLChars (joinLinesAux M) := by
  intro M
  induction M with
  | nil => intro _; simp [joinLinesAux, dropLastEmptyLines, trimNLChars]
  | cons l M2 ih =>
      intro h
      rcases M2 with _ | ⟨l2, rest⟩
      · by_cases hl : l = []
        · subst hl
          simp [dropLastEmptyLines, joinLinesAux, trimNLChars]
        · have hlast : ¬ (l.getLast? = some nlChar) := by
            intro hc
            have h2 := h l (List.mem_cons_self _ _) nlChar
              (mem_of_getLastQ l nlChar hc)
            simp [nl_boundary] at h2
          simp [dropLastEmptyLines, joinLinesAux, trimNLChars, hl, hlast]
      · by_cases hA : joinLinesAux (l2 :: rest) = []
        · have hM2 : l2 :: rest = [[]] := by
            rcases (joinLinesAux_eq_nil_iff _).1 hA with h1 | h1
            · exact absurd h1 (by simp)
            · exact h1
          obtain ⟨rfl, rfl⟩ : l2 = [] ∧ rest = [] := by
            injection hM2 with h1 h2
            exact ⟨h1, h2⟩
          rw [dropLastEmptyLines_cons_cons]
          have hd1 : dropLastEmptyLines [([] : List Char)] = [] := by
            simp [dropLastEmptyLines]
          rw [hd1, joinLinesAux, joinLinesAux, joinLinesAux, trimNLChars]
          simp
        · have hDL : dropLastEmptyLines (l2 :: rest) ≠ [] := by
            intro hc
            rw [dropLastEmptyLines] at hc
            by_cases hlast : (l2 :: rest).getLast? = some ([] : List Char)
            · rw [if_pos hlast] at hc
              have hrest : rest = [] := by
                rcases rest with _ | ⟨r1, rs⟩
                · rfl
                · simp [List.dropLast] at hc
              subst hrest
              have hl2 : l2 = [] := by simpa using hlast
              subst hl2
              exact hA rfl
            · rw [if_neg hlast] at hc
              simp at hc
          rw [dropLastEmptyLines_cons_cons,
            joinLinesAux_cons_ne l _ hDL,
            ih (fun l3 h3 => h l3 (List.mem_cons_of_mem _ h3)),
            joinLinesAux_cons_ne l _ (by simp),
            trimNL_append l _ hA]


/-- C3 (amended): clean_sbatch_params keeps exactly those lines that do not
    simultaneously start with the `#SBATCH` prefix, contain an `=`, and have
    an empty-or-whitespace-only span strictly between the first `=` and the
    following `=` (or the end of the line); every kept line passes through
    unchanged and the original relative order is preserved. -/
theorem C3_clean_sbatch_params_amended (s : String) :
    clean_sbatch_params s =
      String.mk (joinLinesAux
        ((splitlinesAux s.data []).filter keepLineAmended)) := by
  rw [clean_sbatch_params,
    List.filter_congr (fun l _ => keepLineChars_eq_amended l)]

/-- C3 counterexample: the line `#SBATCH a== b` has a non-whitespace portion
    after its first `=` (namely `= b`), so the claimed rule keeps it, but
    the code inspects only the span between the first and second `=` (which
    is empty) and drops the line. -/
theorem C3_clean_sbatch_params_counterexample :
    clean_sbatch_params "#SBATCH a== b" = ""
    ∧ clean_sbatch_params_claim "#SBATCH a== b" = "#SBATCH a== b" :=
  ⟨rfl, rfl⟩

/-- C10 counterexample: on the input consisting of two newlines, one
    application yields a single newline and a second application yields the
    empty string, so clean_sbatch_params is not idempotent. -/
theorem C10_clean_sbatch_params_not_idempotent :
    clean_sbatch_params (clean_sbatch_params "\n\n")
      ≠ clean_sbatch_params "\n\n"
    ∧ clean_sbatch_params "\n\n" = "\n"
    ∧ clean_sbatch_params (clean_sbatch_params "\n\n") = "" := by
  refine ⟨?_, rfl, rfl⟩
  have h1 : clean_sbatch_params (clean_sbatch_params "\n\n") = "" := rfl
  have h2 : clean_sbatch_params "\n\n" = "\n" := rfl
  rw [h1, h2]
  decide

/-- C10 (amended): a second application of clean_sbatch_params equals the
    first result with a single trailing newline removed when present (and
    is the identity otherwise); in particular the function is idempotent on
    every input whose cleaned output does not end in a newline. -/
theorem C10_clean_sbatch_params_amended (s : String) :
    clean_sbatch_params (clean_sbatch_params s)
      = trimTrailingNewline (clean_sbatch_params s) := by
  have hM : ∀ l ∈ (splitlinesAux s.data []).filter keepLineChars,
      ∀ c ∈ l, isLineBoundary c = false := by
    intro l hl
    exact splitlinesAux_boundary_free s.data [] (by simp) l
      (List.mem_of_mem_filter hl)
  have hsub : ∀ a ∈ dropLastEmptyLines
      ((splitlinesAux s.data []).filter keepLineChars),
      a ∈ (splitlinesAux s.data []).filter keepLineChars := by
    intro a ha
    rw [dropLastEmptyLines] at ha
    by_cases h : ((splitlinesAux s.data []).filter
        keepLineChars).getLast? = some ([] : List Char)
    · rw [if_pos h] at ha
      exact List.dropLast_subset _ ha
    · rwa [if_neg h] at ha
  simp only [clean_sbatch_params, trimTrailingNewline]
  rw [splitlines_join _ hM,
    List.filter_eq_self.2 (fun a ha => List.of_mem_filter (hsub a ha)),
    joinLines_dropLastEmpty _ hM]

/-! ### Shell-safe quoting: `quote` (src/launch.py) -/

/-- The space character. -/
def spChar : Char := Char.ofNat 32

/-- The backslash character. -/
def bsChar : Char := Char.ofNat 92

/-- The single-quote character. -/
def sqChar : Char := Char.ofNat 39

/-- The double-quote character. -/
def dqChar : Char := Char.ofNat 34

/-- The opening parenthesis. -/
def lparenChar : Char := Char.ofNat 40

/-- The closing parenthesis. -/
def rparenChar : Char := Char.ofNat 41

/-- Python `s.replace(c, r)` for a one-character pattern. -/
def replaceCharAux (c0 : Char) (r : List Char) : List Char → List Char
  | [] => []
  | x :: rest =>
      if x = c0 then r ++ replaceCharAux c0 r rest
      else x :: replaceCharAux c0 r rest

/-- Python `str()` of a scalar value (the launcher only stringifies
    scalars; containers are handled by the flattener before this point, so
    a simple marker suffices for them and is never exercised). -/
def pyStr : Val → String
  | Val.vstr s => s
  | Val.vnum n => toString n
  | Val.vbool b => if b then "True" else "False"
  | Val.vnull => "None"
  | Val.vlist _ => "[...]"
  | Val.vdict _ => "<dict>"

/-- The two `str.replace` calls of `quote`: backslash-escape every
    parenthesis. -/
def pyEscapeParens (s : String) : String :=
  String.mk (replaceCharAux rparenChar [bsChar, rparenChar]
    (replaceCharAux lparenChar [bsChar, lparenChar] s.data))

/-- `quote(value)` of src/launch.py: stringify, escape parentheses, then
    wrap in double quotes when the value contains a space or `=` (single
    quotes when it also contains a double quote), failing when it contains
    both quote characters. -/
def quote (value : Val) : Except String String :=
  let v := pyEscapeParens (pyStr value)
  if v.data.contains spChar || v.data.contains eqChar then
    if ¬ v.data.contains dqChar then Except.ok (dq ++ v ++ dq)
    else if ¬ v.data.contains sqChar then Except.ok (sq ++ v ++ sq)
    else Except.error ("Cannot quote " ++ pyStr value)
  else Except.ok v

example : quote (Val.vstr "hello world") = Except.ok (dq ++ "hello world" ++ dq) := rfl
example : quote (Val.vstr "a=b") = Except.ok (dq ++ "a=b" ++ dq) := rfl
example : quote (Val.vstr (sq ++ dq)) = Except.ok (sq ++ dq) := rfl
example : quote (Val.vstr ("a=" ++ sq ++ dq)) = Except.error ("Cannot quote " ++ ("a=" ++ sq ++ dq)) := rfl
example : quote (Val.vstr "f(x)") = Except.ok (String.mk [Char.ofNat 102, bsChar, lparenChar, Char.ofNat 120, bsChar, rparenChar]) := rfl

theorem mem_replaceCharAux (c c0 : Char) (r : List Char)
    (hc : c ≠ c0) (hr : c ∉ r) :
    ∀ l : List Char, (c ∈ replaceCharAux c0 r l) ↔ c ∈ l := by
  intro l
  induction l with
  | nil => simp [replaceCharAux]
  | cons x rest ih =>
      by_cases hx : x = c0
      · subst hx
        simp [replaceCharAux, ih, hr, fun h : c = x => hc h]
      · simp [replaceCharAux, hx, ih]

theorem pyEscapeParens_spec (s : String) :
    (pyEscapeParens s).data = s.data.flatMap (fun c =>
      if c = lparenChar then [bsChar, lparenChar]
      else if c = rparenChar then [bsChar, rparenChar] else [c]) := by
  show (String.mk _).data = _
  simp only []
  induction s.data with
  | nil => simp [replaceCharAux]
  | cons x rest ih =>
      by_cases h1 : x = lparenChar
      · subst h1
        simp [replaceCharAux, ih, show ¬ (bsChar = rparenChar) by decide,
          show ¬ (lparenChar = rparenChar) by decide]
      · by_cases h2 : x = rparenChar
        · subst h2
          simp [replaceCharAux,
            show ¬ (rparenChar = lparenChar) by decide, ih]
        · simp [replaceCharAux, h1, h2, ih]

theorem mem_pyEscapeParens (c : Char) (s : String)
    (h1 : c ≠ lparenChar) (h2 : c ≠ rparenChar) (h3 : c ≠ bsChar) :
    c ∈ (pyEscapeParens s).data ↔ c ∈ s.data := by
  rw [pyEscapeParens]
  show c ∈ replaceCharAux _ _ _ ↔ _
  rw [mem_replaceCharAux c rparenChar [bsChar, rparenChar] h2
      (by simp [h2, h3]),
    mem_replaceCharAux c lparenChar [bsChar, lparenChar] h1
      (by simp [h1, h3])]


/-- C4 (amended): quote backslash-escapes every parenthesis (stated as a
    one-pass character expansion), wraps in double quotes when the value
    contains a space or an equals sign (single quotes when the value also
    contains a double quote), and raises an error identifying the value if
    and only if the value contains a space or an equals sign AND both quote
    characters; a value with both quote characters but neither space nor
    `=` is returned unwrapped without error. -/
theorem C4_quote_spec (s : String) :
    (quote (Val.vstr s) = Except.error ("Cannot quote " ++ s)
       ↔ ((spChar ∈ s.data ∨ eqChar ∈ s.data)
           ∧ dqChar ∈ s.data ∧ sqChar ∈ s.data))
    ∧ ((spChar ∈ s.data ∨ eqChar ∈ s.data) → dqChar ∉ s.data →
        quote (Val.vstr s) = Except.ok (dq ++ pyEscapeParens s ++ dq))
    ∧ ((spChar ∈ s.data ∨ eqChar ∈ s.data) → dqChar ∈ s.data →
        sqChar ∉ s.data →
        quote (Val.vstr s) = Except.ok (sq ++ pyEscapeParens s ++ sq))
    ∧ (¬ (spChar ∈ s.data ∨ eqChar ∈ s.data) →
        quote (Val.vstr s) = Except.ok (pyEscapeParens s))
    ∧ (pyEscapeParens s).data = s.data.flatMap (fun c =>
        if c = lparenChar then [bsChar, lparenChar]
        else if c = rparenChar then [bsChar, rparenChar] else [c]) := by
  have hsp := mem_pyEscapeParens spChar s (by decide) (by decide) (by decide)
  have heq := mem_pyEscapeParens eqChar s (by decide) (by decide) (by decide)
  have hdq := mem_pyEscapeParens dqChar s (by decide) (by decide) (by decide)
  have hsq := mem_pyEscapeParens sqChar s (by decide) (by decide) (by decide)
  refine ⟨?_, ?_, ?_, ?_, pyEscapeParens_spec s⟩
  · constructor
    · intro h
      by_cases hc1 : spChar ∈ s.data ∨ eqChar ∈ s.data
      · by_cases hc2 : dqChar ∈ s.data
        · by_cases hc3 : sqChar ∈ s.data
          · exact ⟨hc1, hc2, hc3⟩
          · rw [show quote (Val.vstr s)
                = Except.ok (sq ++ pyEscapeParens s ++ sq) from by
              simp [quote, pyStr, hsp, heq, hdq, hsq, hc1, hc2, hc3]] at h
            cases h
        · rw [show quote (Val.vstr s)
              = Except.ok (dq ++ pyEscapeParens s ++ dq) from by
            simp [quote, pyStr, hsp, heq, hdq, hc1, hc2]] at h
          cases h
      · rw [show quote (Val.vstr s) = Except.ok (pyEscapeParens s) from by
          simp [quote, pyStr, hsp, heq, hc1]] at h
        cases h
    · rintro ⟨hc1, hc2, hc3⟩
      simp [quote, pyStr, hsp, heq, hdq, hsq, hc1, hc2, hc3]
  · intro hc1 hc2
    simp [quote, pyStr, hsp, heq, hdq, hc1, hc2]
  · intro hc1 hc2 hc3
    simp [quote, pyStr, hsp, heq, hdq, hsq, hc1, hc2, hc3]
  · intro hc1
    simp [quote, pyStr, hsp, heq, hc1]

/-- C4 counterexample: the value made of a single quote followed by a
    double quote contains both quote characters, yet quote returns it
    unchanged (no error), because it contains neither a space nor `=`. -/
theorem C4_quote_counterexample :
    sqChar ∈ (sq ++ dq).data ∧ dqChar ∈ (sq ++ dq).data
    ∧ quote (Val.vstr (sq ++ dq)) = Except.ok (sq ++ dq) :=
  ⟨by decide, by decide, rfl⟩

/-- Witness for C4 at the claim's own examples, derived from the spec
    theorem. -/
theorem C4_quote_spec_witness :
    quote (Val.vstr "hello world") = Except.ok (dq ++ "hello world" ++ dq)
    ∧ quote (Val.vstr "a=b") = Except.ok (dq ++ "a=b" ++ dq) := by
  constructor
  · have h := (C4_quote_spec "hello world").2.1
      (Or.inl (by decide)) (by decide)
    rw [h]
    rfl
  · have h := (C4_quote_spec "a=b").2.1
      (Or.inr (by decide)) (by decide)
    rw [h]
    rfl

/-! ### Script-argument flattener: `script_dict_to_script_args_str`
    (src/launch.py) -/

/-- Number of `=` characters in a token (Python `candidate.count("=")`). -/
def countEq (l : List Char) : Nat := l.countP (fun x => x = eqChar)

/-- Python `str.strip()`. -/
def pyStripStr (s : String) : String := String.mk (pyStripChars s.data)

/-- The assertion message of the flattener. -/
def flattenAssertMsg : String :=
  "Keys cannot contain ` ` and `" ++ sq ++ "` and `=` "

mutual
/-- `script_dict_to_script_args_str(script_dict, is_first, nested_key)` of
    src/launch.py: recursively flattens a script dict into space-separated
    `dotted.key=value` tokens.  A scalar leaf emits `nested_key=quote(v)`
    followed by a space, wrapping the token in single quotes when it holds
    more than one `=` (asserting it holds no single quote); the sentinel
    key `__value__` emits `nested_key=quote(v)` plus the trailing space
    inside the potential single-quote wrap, exactly as the source does (the
    source also computes a local `value` string there that it never uses);
    any other key extends the dotted path and recurses.  The outermost call
    strips the result. -/
def script_dict_to_script_args_str (script_dict : Val) (is_first : Bool)
    (nested_key : String) : Except String String :=
  match script_dict with
  | Val.vdict entries => do
      let body ← flattenEntries entries nested_key
      Except.ok (if is_first then pyStripStr body else body)
  | _ => do
      let q ← quote script_dict
      let candidate := nested_key ++ "=" ++ q
      if countEq candidate.data > 1 then
        if candidate.data.contains sqChar then
          Except.error flattenAssertMsg
        else Except.ok (sq ++ candidate ++ sq ++ " ")
      else Except.ok (candidate ++ " ")
  termination_by sizeOf script_dict

/-- The `for k, v in script_dict.items()` loop of the flattener. -/
def flattenEntries (entries : List (String × Val)) (nested_key : String) :
    Except String String :=
  match entries with
  | [] => Except.ok ""
  | (k, v) :: rest =>
      if k = "__value__" then do
        let q ← quote v
        let candidate := nested_key ++ "=" ++ q ++ " "
        let wrapped ←
          if countEq candidate.data > 1 then
            if candidate.data.contains sqChar then
              Except.error flattenAssertMsg
            else Except.ok (sq ++ candidate ++ sq)
          else Except.ok candidate
        let restStr ← flattenEntries rest nested_key
        Except.ok (wrapped ++ restStr)
      else do
        let new_key := if nested_key = "" then k else nested_key ++ "." ++ k
        let sub ← script_dict_to_script_args_str v false new_key
        let restStr ← flattenEntries rest nested_key
        Except.ok (sub ++ restStr)
  termination_by sizeOf entries
  decreasing_by
    all_goals simp_wf
    all_goals simp_arith
end


/-- C5: flattening `{a: {__value__: x, b: y}}` produces exactly the two
    tokens `a=x` and `a.b=y` (the sentinel key assigns to the enclosing
    dotted path, and co-occurs legally with sibling keys); tokens compared
    as an order-independent multiset. -/
theorem C5_flatten_sentinel :
    script_dict_to_script_args_str
        (Val.vdict [("a", Val.vdict [("__value__", Val.vstr "x"),
          ("b", Val.vstr "y")])]) true ""
      = Except.ok "a=x a.b=y"
    ∧ (((splitOnCharAux spChar ("a=x a.b=y").data []).map
          String.mk).Perm ["a=x", "a.b=y"]) := by
  constructor
  · simp [script_dict_to_script_args_str, flattenEntries, quote, pyStr,
      pyEscapeParens, replaceCharAux, countEq, pyStripStr, pyStripChars]
    rfl
  · decide

theorem countEq_append_space (l : List Char) :
    countEq (l ++ [spChar]) = countEq l := by
  have h : List.countP (fun x => decide (x = eqChar)) [spChar] = 0 := by
    decide
  simp [countEq, List.countP_append, h]

theorem except_bind_okFun (e : Except String String) :
    Except.bind e Except.ok = e := by
  cases e <;> rfl

/-- The dict arm of the flattener with `is_first = false` is the plain
    entry loop. -/
theorem flatten_dict_not_first (es : List (String × Val)) (key : String) :
    script_dict_to_script_args_str (Val.vdict es) false key
      = flattenEntries es key := by
  simp only [script_dict_to_script_args_str, Except.instMonad, Except.bind,
    bind, Bool.false_eq_true, if_false]
  exact except_bind_okFun _

/-- The scalar-leaf emission step of the flattener. -/
theorem flatten_scalar_leaf (v : Val) (key q : String)
    (hq : quote v = Except.ok q) (hnd : ∀ es, v ≠ Val.vdict es) :
    script_dict_to_script_args_str v false key
      = (if countEq (key ++ "=" ++ q).data > 1 then
          if (key ++ "=" ++ q).data.contains sqChar then
            Except.error flattenAssertMsg
          else Except.ok (sq ++ (key ++ "=" ++ q) ++ sq ++ " ")
        else Except.ok ((key ++ "=" ++ q) ++ " ")) := by
  rcases v with s | n | b | _ | xs | es
  case vdict => exact absurd rfl (hnd es)
  all_goals
    simp only [script_dict_to_script_args_str, hq, Except.instMonad,
      Except.bind, bind]

/-- The `__value__` sentinel emission step of the flattener on a singleton
    dict. -/
theorem flatten_value_entry (v : Val) (key q : String)
    (hq : quote v = Except.ok q) :
    flattenEntries [("__value__", v)] key
      = (if countEq (key ++ "=" ++ q ++ " ").data > 1 then
          if (key ++ "=" ++ q ++ " ").data.contains sqChar then
            Except.error flattenAssertMsg
          else Except.ok ((sq ++ (key ++ "=" ++ q ++ " ") ++ sq) ++ "")
        else Except.ok ((key ++ "=" ++ q ++ " ") ++ "")) := by
  have hkey : (("__value__" : String) = "__value__") := rfl
  simp only [flattenEntries, if_pos hkey, hq, Except.instMonad, Except.bind,
    bind, if_true]

/-- C6: in both the scalar-leaf branch and the `__value__` sentinel branch,
    an emitted token with more than one `=` is wrapped in single quotes,
    and the flattener fails exactly when such a multi-`=` token itself
    contains a single-quote character; a token with at most one `=` is
    emitted unwrapped and never triggers this failure.  (In the sentinel
    branch the wrap encloses the token together with its trailing space,
    as in the source.) -/
theorem C6_flatten_multi_eq_wrap (key : String) (v : Val) (q : String)
    (hq : quote v = Except.ok q)
    (hnd : ∀ es, v ≠ Val.vdict es) :
    (countEq (key ++ "=" ++ q).data > 1 →
       (script_dict_to_script_args_str v false key
          = if (key ++ "=" ++ q).data.contains sqChar
            then Except.error flattenAssertMsg
            else Except.ok (sq ++ (key ++ "=" ++ q) ++ sq ++ " "))
       ∧ (script_dict_to_script_args_str
            (Val.vdict [("__value__", v)]) false key
          = if (key ++ "=" ++ q ++ " ").data.contains sqChar
            then Except.error flattenAssertMsg
            else Except.ok (sq ++ (key ++ "=" ++ q ++ " ") ++ sq)))
    ∧ (countEq (key ++ "=" ++ q).data ≤ 1 →
       script_dict_to_script_args_str v false key
           = Except.ok ((key ++ "=" ++ q) ++ " ")
       ∧ script_dict_to_script_args_str
             (Val.vdict [("__value__", v)]) false key
           = Except.ok ((key ++ "=" ++ q) ++ " ")) := by
  have hcand : countEq (key ++ "=" ++ q ++ " ").data
      = countEq (key ++ "=" ++ q).data := by
    have h2 : (key ++ "=" ++ q ++ " ").data
        = (key ++ "=" ++ q).data ++ [spChar] := by
      simp [String.data_append]
      rfl
    rw [h2, countEq_append_space]
  constructor
  · intro hc
    have hc2 : countEq (key ++ "=" ++ q ++ " ").data > 1 := by
      rw [hcand]; exact hc
    constructor
    · rw [flatten_scalar_leaf v key q hq hnd, if_pos hc]
    · rw [flatten_dict_not_first, flatten_value_entry v key q hq,
        if_pos hc2]
      by_cases hsq : (key ++ "=" ++ q ++ " ").data.contains sqChar
      · rw [if_pos hsq, if_pos hsq]
      · rw [if_neg hsq, if_neg hsq, String.append_empty]
  · intro hc
    have hc2 : ¬ (countEq (key ++ "=" ++ q).data > 1) := by omega
    have hc3 : ¬ (countEq (key ++ "=" ++ q ++ " ").data > 1) := by
      rw [hcand]; exact hc2
    constructor
    · rw [flatten_scalar_leaf v key q hq hnd, if_neg hc2]
    · rw [flatten_dict_not_first, flatten_value_entry v key q hq,
        if_neg hc3, String.append_empty]

/-- Witness for C6: flattening the leaf value `a=b` under key `k` yields a
    token with two `=` signs and no single quote, so it is wrapped in
    single quotes without error. -/
theorem C6_flatten_multi_eq_wrap_witness :
    script_dict_to_script_args_str (Val.vstr "a=b") false "k"
      = Except.ok (sq ++ ("k=" ++ (dq ++ "a=b" ++ dq)) ++ sq ++ " ") := by
  have h := (C6_flatten_multi_eq_wrap "k" (Val.vstr "a=b")
      (dq ++ "a=b" ++ dq) rfl (fun es h2 => by cases h2)).1 (by decide)
  rw [h.1, if_neg (by decide)]
  rfl


/-! ### Template projection and rendering (src/launch.py `__main__`) -/

/-- The opening brace character. -/
def lbraceChar : Char := Char.ofNat 123

/-- The closing brace character. -/
def rbraceChar : Char := Char.ofNat 125

/-- A regex word character (`\w`): ASCII letter, digit or underscore, the
    only characters appearing in the launcher's template keys. -/
def isWordChar (c : Char) : Bool := c.isAlphanum || c = Char.ofNat 95

/-- `re.findall(r"{(\w+)}", template)` as a one-pass scanner: the state is
    `none` outside a candidate match and `some acc` after an opening brace
    followed by the (reversed) word characters `acc`.  A candidate that
    fails can only restart at the failing character, since only an opening
    brace can begin a match. -/
def findPhAux : List Char → Option (List Char) → List (List Char)
  | [], _ => []
  | c :: rest, none =>
      if c = lbraceChar then findPhAux rest (some [])
      else findPhAux rest none
  | c :: rest, some acc =>
      if isWordChar c then findPhAux rest (some (c :: acc))
      else if c = rbraceChar && ¬ acc.isEmpty then
        acc.reverse :: findPhAux rest none
      else if c = lbraceChar then findPhAux rest (some [])
      else findPhAux rest none

/-- The placeholder identifiers of a template, in scan order. -/
def findPlaceholders (template : String) : List String :=
  (findPhAux template.data none).map String.mk

/-- First-match lookup in a string-valued association list. -/
def lookupStr (a : List (String × String)) (k : String) : Option String :=
  match a with
  | [] => none
  | (k1, v1) :: rest => if k1 = k then some v1 else lookupStr rest k

/-- Python set equality of two key lists. -/
def sameKeySet (xs ys : List String) : Bool :=
  xs.all (fun x => ys.contains x) && ys.all (fun y => xs.contains y)

/-- Scanner state of `formatAux`: outside any field, after a single
    closing brace (awaiting its escape partner), or inside a replacement
    field holding the reversed word characters seen so far. -/
inductive FmtState where
  | normal
  | closeBr
  | field (acc : List Char)

/-- `template.format(**values)` restricted to the `{word}` fields and
    `{{`/`}}` escapes the launcher uses (a stray brace or a non-word field
    is a format error, as in Python), written as a one-pass scanner over
    the template characters. -/
def formatAux (vals : List (String × String)) :
    List Char → FmtState → Except String (List Char)
  | [], FmtState.normal => Except.ok []
  | [], FmtState.closeBr => Except.error "Single brace encountered"
  | [], FmtState.field _ => Except.error "Single brace encountered"
  | c :: rest, FmtState.normal =>
      if c = lbraceChar then formatAux vals rest (FmtState.field [])
      else if c = rbraceChar then formatAux vals rest FmtState.closeBr
      else do
        let out ← formatAux vals rest FmtState.normal
        Except.ok (c :: out)
  | c :: rest, FmtState.closeBr =>
      if c = rbraceChar then do
        let out ← formatAux vals rest FmtState.normal
        Except.ok (rbraceChar :: out)
      else Except.error "Single brace encountered"
  | c :: rest, FmtState.field acc =>
      if isWordChar c then formatAux vals rest (FmtState.field (c :: acc))
      else if c = lbraceChar && acc.isEmpty then do
        let out ← formatAux vals rest FmtState.normal
        Except.ok (lbraceChar :: out)
      else if c = rbraceChar && ¬ acc.isEmpty then
        match lookupStr vals (String.mk acc.reverse) with
        | some v => do
            let out ← formatAux vals rest FmtState.normal
            Except.ok (v.data ++ out)
        | none => Except.error ("KeyError: " ++ String.mk acc.reverse)
      else Except.error "Invalid replacement field"

/-- Rendering errors: the hard key-set mismatch (which reports both sets,
    as the source prints them before raising) or a format error. -/
inductive RenderErr where
  | keySetMismatch (known : List String) (provided : List String)
  | formatErr (msg : String)
deriving Repr, DecidableEq

/-- The template-rendering slice of `__main__` in src/launch.py: extract
    the `{word}` placeholder set, project the configuration onto it
    (stringifying values), fail with both key sets when the projected keys
    do not exactly match the placeholder set, and otherwise substitute. -/
def render (template : String) (conf : List (String × Val)) :
    Except RenderErr String :=
  let known := (findPlaceholders template).dedup
  let vals := (conf.filter (fun kv => known.contains kv.1)).map
    (fun kv => (kv.1, pyStr kv.2))
  if ¬ sameKeySet known (vals.map Prod.fst) then
    Except.error (RenderErr.keySetMismatch known (vals.map Prod.fst))
  else
    match formatAux vals template.data FmtState.normal with
    | Except.ok out => Except.ok (String.mk out)
    | Except.error e => Except.error (RenderErr.formatErr e)

example : render "{x}" [("x", Val.vstr "1")] = Except.ok "1" := rfl
example : render "{x}{y}" [("x", Val.vstr "1")]
    = Except.error (RenderErr.keySetMismatch ["x", "y"] ["x"]) := rfl
example : render "{x} mem" [("x", Val.vstr "1"), ("z", Val.vstr "2")]
    = Except.ok "1 mem" := rfl


/-! ### Job-set loading: `load_jobs` (src/launch.py) -/

/-- Python `d.get(k, default)`. -/
def getD (d : List (String × Val)) (k : String) (dflt : Val) : Val :=
  (lookupKV d k).getD dflt

/-- Requires a dict value, as Python attribute/iteration use does (a
    `None` here raises a TypeError in the source). -/
def asDict : Val → Except String (List (String × Val))
  | Val.vdict es => Except.ok es
  | _ => Except.error "TypeError: expected a dict"

/-- The dict entries of a value, with `[]` for non-dicts (total companion
    of `asDict`, used to state results whose hypotheses already force the
    value to be a dict). -/
def dictOrNil : Val → List (String × Val)
  | Val.vdict es => es
  | _ => []

/-- The `for job_dict in jobs_config["jobs"]` loop of `load_jobs`: each
    entry must be a dict; its `slurm` and `script` values (defaulting to
    `{}` when the key is absent) are passed to `deep_update` over the
    shared baselines, which requires dicts (Python raises a TypeError when
    iterating a present `None`); the merged results are assigned back into
    the entry, and entries are emitted in order. -/
def loadJobsLoop (ss sc : List (String × Val)) :
    List Val → Except String (List Val)
  | [] => Except.ok []
  | j :: rest => do
      let jd ← asDict j
      let jsd ← asDict (getD jd "slurm" (Val.vdict []))
      let jscd ← asDict (getD jd "script" (Val.vdict []))
      let jd2 := setKey (setKey jd "slurm" (Val.vdict (deep_update ss jsd)))
        "script" (Val.vdict (deep_update sc jscd))
      let rest2 ← loadJobsLoop ss sc rest
      Except.ok (Val.vdict jd2 :: rest2)

/-- `load_jobs(yaml_path)` of src/launch.py, with the YAML document passed
    as a value (`none` models a `None` path): returns `[]` for `none`;
    otherwise reads `shared.slurm` and `shared.script` (empty dicts when
    absent), requires the `jobs` key (a KeyError otherwise) to hold a
    list, and merges each entry.  Non-dict shapes, which make the Python
    code raise, are modelled as errors. -/
def load_jobs (doc : Option Val) : Except String (List Val) :=
  match doc with
  | none => Except.ok []
  | some docv => do
      let dced ← asDict docv
      let sharedv ← asDict (getD dced "shared" (Val.vdict []))
      let shared_slurm ← asDict (getD sharedv "slurm" (Val.vdict []))
      let shared_script ← asDict (getD sharedv "script" (Val.vdict []))
      let jobsv ← match lookupKV dced "jobs" with
        | some v => Except.ok v
        | none => Except.error "KeyError: jobs"
      let jobsList ← match jobsv with
        | Val.vlist xs => Except.ok xs
        | _ => Except.error "TypeError: jobs is not a list"
      loadJobsLoop shared_slurm shared_script jobsList

example : load_jobs none = Except.ok [] := rfl
example : load_jobs (some (Val.vdict
    [("shared", Val.vdict [("slurm", Val.vdict [("mem", Val.vstr "16G")])]),
     ("jobs", Val.vlist [Val.vdict [("slurm", Val.vdict [("mem", Val.vstr "32G")])],
                         Val.vdict []])]))
  = Except.ok
      [Val.vdict [("slurm", Val.vdict [("mem", Val.vstr "32G")]),
                  ("script", Val.vdict [])],
       Val.vdict [("slurm", Val.vdict [("mem", Val.vstr "16G")]),
                  ("script", Val.vdict [])]] := by
  simp [load_jobs, loadJobsLoop, asDict, getD, lookupKV, deep_update,
    deepUpdateEntry, setKey, pyEq, Except.instMonad, Except.bind, bind]
example : load_jobs (some (Val.vdict
    [("shared", Val.vdict [("slurm", Val.vdict [("mem", Val.vstr "16G")])]),
     ("jobs", Val.vlist [Val.vdict [("slurm", Val.vnull)]])]))
  = Except.error "TypeError: expected a dict" := by
  simp [load_jobs, loadJobsLoop, asDict, getD, lookupKV,
    Except.instMonad, Except.bind, bind]

theorem loadJobsLoop_spec (ss sc : List (String × Val)) :
    ∀ (jobs : List (List (String × Val))),
      (∀ jd ∈ jobs, (∃ es, getD jd "slurm" (Val.vdict []) = Val.vdict es)
        ∧ (∃ es, getD jd "script" (Val.vdict []) = Val.vdict es)) →
      loadJobsLoop ss sc (jobs.map Val.vdict)
        = Except.ok (jobs.map (fun jd =>
            Val.vdict (setKey (setKey jd "slurm"
                (Val.vdict (deep_update ss
                  (dictOrNil (getD jd "slurm" (Val.vdict []))))))
              "script"
              (Val.vdict (deep_update sc
                (dictOrNil (getD jd "script" (Val.vdict [])))))))) := by
  intro jobs
  induction jobs with
  | nil => intro _; rfl
  | cons jd rest ih =>
      intro h
      obtain ⟨⟨es1, he1⟩, ⟨es2, he2⟩⟩ := h jd (List.mem_cons_self _ _)
      simp only [List.map_cons, loadJobsLoop, asDict, he1, he2,
        Except.instMonad, Except.bind, bind,
        ih (fun j hj => h j (List.mem_cons_of_mem _ hj)), dictOrNil]

/-- C7 counterexample: a job entry with an explicitly null `slurm` field.
    The claim's `entry.slurm or {}` semantics would merge the shared
    baseline with `{}` and succeed with `slurm.mem = "16G"`, but the code
    passes the present `None` straight to `deep_update`, which raises a
    TypeError. -/
theorem C7_load_jobs_counterexample :
    load_jobs (some (Val.vdict
      [("shared", Val.vdict [("slurm",
          Val.vdict [("mem", Val.vstr "16G")])]),
       ("jobs", Val.vlist [Val.vdict [("slurm", Val.vnull)]])]))
      = Except.error "TypeError: expected a dict" := by
  simp [load_jobs, loadJobsLoop, asDict, getD, lookupKV,
    Except.instMonad, Except.bind, bind]

/-- C7 (amended): `load_jobs(None)` returns the empty list; otherwise, for
    each entry of the required jobs list in order, the entry's `slurm`
    (resp. `script`) field is replaced by the merge of `shared.slurm`
    (resp. `shared.script`) with the entry's own field — where the empty
    default applies only when the key is absent, a present non-dict value
    such as `null` being an error — every other entry-level field is left
    untouched, and the returned list preserves the jobs list order. -/
theorem C7_load_jobs_amended :
    load_jobs none = Except.ok []
    ∧ ∀ (dced sharedv ssl ssc : List (String × Val))
        (jobs : List (List (String × Val))),
        getD dced "shared" (Val.vdict []) = Val.vdict sharedv →
        getD sharedv "slurm" (Val.vdict []) = Val.vdict ssl →
        getD sharedv "script" (Val.vdict []) = Val.vdict ssc →
        lookupKV dced "jobs" = some (Val.vlist (jobs.map Val.vdict)) →
        (∀ jd ∈ jobs,
          (∃ es, getD jd "slurm" (Val.vdict []) = Val.vdict es)
          ∧ (∃ es, getD jd "script" (Val.vdict []) = Val.vdict es)) →
        load_jobs (some (Val.vdict dced))
          = Except.ok (jobs.map (fun jd =>
              Val.vdict (setKey (setKey jd "slurm"
                  (Val.vdict (deep_update ssl
                    (dictOrNil (getD jd "slurm" (Val.vdict []))))))
                "script"
                (Val.vdict (deep_update ssc
                  (dictOrNil (getD jd "script" (Val.vdict [])))))))) := by
  refine ⟨rfl, ?_⟩
  intro dced sharedv ssl ssc jobs hsh hss hsc hjobs hents
  simp only [load_jobs, asDict, hsh, hss, hsc, hjobs,
    Except.instMonad, Except.bind, bind]
  exact loadJobsLoop_spec ssl ssc jobs hents

/-- Witness for C7: shared `slurm.mem = 16G`, one job overriding to 32G
    and one without override, giving 32G and 16G in order. -/
theorem C7_load_jobs_amended_witness :
    load_jobs (some (Val.vdict
      [("shared", Val.vdict [("slurm",
          Val.vdict [("mem", Val.vstr "16G")])]),
       ("jobs", Val.vlist
         [Val.vdict [("slurm", Val.vdict [("mem", Val.vstr "32G")])],
          Val.vdict []])]))
      = Except.ok
          [Val.vdict [("slurm", Val.vdict [("mem", Val.vstr "32G")]),
                      ("script", Val.vdict [])],
           Val.vdict [("slurm", Val.vdict [("mem", Val.vstr "16G")]),
                      ("script", Val.vdict [])]] := by
  have h := C7_load_jobs_amended.2
    [("shared", Val.vdict [("slurm", Val.vdict [("mem", Val.vstr "16G")])]),
     ("jobs", Val.vlist
       [Val.vdict [("slurm", Val.vdict [("mem", Val.vstr "32G")])],
        Val.vdict []])]
    [("slurm", Val.vdict [("mem", Val.vstr "16G")])]
    [("mem", Val.vstr "16G")] []
    [[("slurm", Val.vdict [("mem", Val.vstr "32G")])], []]
    rfl rfl rfl rfl
    (by
      intro jd hjd
      rcases List.mem_cons.1 hjd with h1 | h1
      · subst h1
        exact ⟨⟨[("mem", Val.vstr "32G")], rfl⟩, ⟨[], rfl⟩⟩
      · rcases List.mem_cons.1 h1 with h2 | h2
        · subst h2
          exact ⟨⟨[], rfl⟩, ⟨[], rfl⟩⟩
        · simp at h2)
  rw [h]
  simp [getD, lookupKV, dictOrNil, deep_update, deepUpdateEntry, setKey,
    pyEq]
/-! ### Heap-level model of `deep_update` for the no-mutation claim

The pure `deep_update` above abstracts away Python's in-place updates.  To
settle whether the top-level call mutates its base argument, the relevant
slice of the Python heap is modelled explicitly: dictionaries are mutable
objects at numeric addresses in a store, scalars are immediate values, and
`deep_update` is re-translated instruction by instruction as a
store-transforming function (`copy.deepcopy` at the top-level entry, then
the key loop with its in-place writes).  Spec Configuration Maps contain
scalars and nested maps only, so list values do not occur here. -/

/-- A heap value: an immediate scalar or a reference to a dict object. -/
inductive HVal where
  | hstr (x : String)
  | hnum (n : Int)
  | hbool (b : Bool)
  | hnull
  | href (a : Nat)
deriving Repr, DecidableEq

/-- A dict object: insertion-ordered bindings. -/
abbrev Obj := List (String × HVal)

/-- The heap: object `i` lives at address `i`. -/
abbrev Store := List Obj

/-- Reads the object at an address. -/
def read (s : Store) (a : Nat) : Option Obj := s.get? a

/-- Overwrites the object at an address. -/
def write (s : Store) (a : Nat) (o : Obj) : Store := s.set a o

/-- Allocates a fresh object, returning its address. -/
def alloc (s : Store) (o : Obj) : Store × Nat := (s ++ [o], s.length)

/-- First-match lookup in a dict object. -/
def lookupH (o : Obj) (k : String) : Option HVal :=
  match o with
  | [] => none
  | (k1, v1) :: rest => if k1 = k then some v1 else lookupH rest k

/-- Python dict assignment on an object. -/
def setKeyH (o : Obj) (k : String) (v : HVal) : Obj :=
  match o with
  | [] => [(k, v)]
  | (k1, v1) :: rest =>
      if k1 = k then (k, v) :: rest else (k1, v1) :: setKeyH rest k v

mutual
/-- Is a value free of lists, i.e. a spec Configuration Map value? -/
def listFree : Val → Bool
  | Val.vstr _ => true
  | Val.vnum _ => true
  | Val.vbool _ => true
  | Val.vnull => true
  | Val.vlist _ => false
  | Val.vdict es => listFreeEntries es
  termination_by v => sizeOf v

/-- List-freeness of dict entries. -/
def listFreeEntries : List (String × Val) → Bool
  | [] => true
  | (_, v) :: rest => listFree v && listFreeEntries rest
  termination_by es => sizeOf es
end

mutual
/-- Builds a fresh heap representation of a pure configuration value. -/
def encVal : Val → Store → Option (Store × HVal)
  | Val.vstr x, s => some (s, HVal.hstr x)
  | Val.vnum n, s => some (s, HVal.hnum n)
  | Val.vbool b, s => some (s, HVal.hbool b)
  | Val.vnull, s => some (s, HVal.hnull)
  | Val.vlist _, _ => none
  | Val.vdict es, s => do
      let (s1, o) ← encEntries es s
      let (s2, a) := alloc s1 o
      some (s2, HVal.href a)
  termination_by v _ => sizeOf v

/-- Encodes dict entries left to right. -/
def encEntries : List (String × Val) → Store → Option (Store × Obj)
  | [], s => some (s, [])
  | (k, v) :: rest, s => do
      let (s1, hv) ← encVal v s
      let (s2, orest) ← encEntries rest s1
      some (s2, (k, hv) :: orest)
  termination_by es _ => sizeOf es
end

mutual
/-- The nesting depth of a value (0 for scalars). -/
def depthV : Val → Nat
  | Val.vdict es => 1 + depthEntries es
  | _ => 0
  termination_by v => sizeOf v

/-- The maximal depth of the values of dict entries. -/
def depthEntries : List (String × Val) → Nat
  | [] => 0
  | (_, v) :: rest => max (depthV v) (depthEntries rest)
  termination_by es => sizeOf es
end

mutual
/-- Reads back the pure value represented at a heap value (fuel-bounded,
    since raw stores may contain reference cycles). -/
def decH : Nat → Store → HVal → Option Val
  | _, _, HVal.hstr x => some (Val.vstr x)
  | _, _, HVal.hnum n => some (Val.vnum n)
  | _, _, HVal.hbool b => some (Val.vbool b)
  | _, _, HVal.hnull => some Val.vnull
  | 0, _, HVal.href _ => none
  | Nat.succ f, s, HVal.href a => do
      let o ← read s a
      let es ← decEntries f s o
      some (Val.vdict es)
  termination_by fuel _ _ => (fuel, 0)

/-- Reads back the entries of a dict object. -/
def decEntries : Nat → Store → Obj → Option (List (String × Val))
  | _, _, [] => some []
  | fuel, s, (k, hv) :: rest => do
      let v ← decH fuel s hv
      let es ← decEntries fuel s rest
      some ((k, v) :: es)
  termination_by fuel _ o => (fuel, o.length + 1)

end

/-- Python `==` between two heap values: decode both (Python's recursive
    structural comparison) and compare as pure values; `none` only on
    cyclic structures, which Python cannot compare either without
    exceeding the recursion limit. -/
def pyEqH (s : Store) (x y : HVal) : Option Bool := do
  let vx ← decH (s.length + 1) s x
  let vy ← decH (s.length + 1) s y
  pure (pyEq vx vy)

mutual
/-- `copy.deepcopy` of a dict object: fresh copies of the object and all
    objects reachable from it.  (The memoisation Python uses to preserve
    internal sharing is irrelevant on tree-shaped object graphs, the only
    graphs this development instantiates.) -/
def dcopy : Nat → Store → Nat → Option (Store × Nat)
  | 0, _, _ => none
  | Nat.succ f, s, a => do
      let o ← read s a
      let (s1, o1) ← dcopyEntries f s o
      some (alloc s1 o1)
  termination_by fuel _ _ => (fuel, 0)

/-- Deep-copies the values of a dict object's bindings. -/
def dcopyEntries : Nat → Store → Obj → Option (Store × Obj)
  | _, s, [] => some (s, [])
  | fuel, s, (k, hv) :: rest =>
      match hv with
      | HVal.href r => do
          let (s1, r1) ← dcopy fuel s r
          let (s2, orest) ← dcopyEntries fuel s1 rest
          some (s2, (k, HVal.href r1) :: orest)
      | _ => do
          let (s2, orest) ← dcopyEntries fuel s rest
          some (s2, (k, hv) :: orest)
  termination_by fuel _ o => (fuel, o.length + 1)
end

mutual
/-- The recursive worker of `deep_update` on the heap: iterates over the
    override object's bindings, recursing when both sides hold dict
    references, keeping the base binding on `==`-equal values, and
    otherwise writing the override value into the base object in place. -/
def du_go : Nat → Store → Nat → Nat → Option Store
  | 0, _, _, _ => none
  | Nat.succ f, s, a, b => do
      let bo ← read s b
      du_loop f s a b bo
  termination_by fuel _ _ _ => (fuel, 0)

/-- The `for key in b` loop of `deep_update` over a snapshot of the
    override object's bindings. -/
def du_loop : Nat → Store → Nat → Nat → List (String × HVal) → Option Store
  | _, s, _, _, [] => some s
  | fuel, s, a, b, (k, bv) :: rest => do
      let ao ← read s a
      let s2 ←
        match lookupH ao k, bv with
        | some (HVal.href ra), HVal.href rb => du_go fuel s ra rb
        | some av, _ => do
            let eqb ← pyEqH s av bv
            if eqb then some s else some (write s a (setKeyH ao k bv))
        | none, _ => some (write s a (ao ++ [(k, bv)]))
      du_loop fuel s2 a b rest
  termination_by fuel _ _ _ bo => (fuel, bo.length + 1)
end

/-- The top-level `deep_update(a, b)` call on the heap: `path is None`, so
    the base object is deep-copied and the worker then updates the copy in
    place, returning its address. -/
def deep_update_impl (fuel : Nat) (s : Store) (a b : Nat) :
    Option (Store × Nat) := do
  let (s1, a1) ← dcopy fuel s a
  let s2 ← du_go fuel s1 a1 b
  some (s2, a1)


mutual
/-- The heap value `hv` represents the pure value `v`, with `R` listing the
    addresses of the dict objects in its representation (root first). -/
def ReprV (s : Store) : HVal → Val → List Nat → Prop
  | hv, Val.vstr x, R => hv = HVal.hstr x ∧ R = []
  | hv, Val.vnum n, R => hv = HVal.hnum n ∧ R = []
  | hv, Val.vbool b, R => hv = HVal.hbool b ∧ R = []
  | hv, Val.vnull, R => hv = HVal.hnull ∧ R = []
  | _, Val.vlist _, _ => False
  | hv, Val.vdict es, R =>
      ∃ a o Rs, hv = HVal.href a ∧ read s a = some o ∧ R = a :: Rs ∧
        ReprEnts s o es Rs
  termination_by _ v _ => sizeOf v

/-- The object `o` represents the pure dict entries `es`. -/
def ReprEnts (s : Store) : Obj → List (String × Val) → List Nat → Prop
  | o, [], R => o = [] ∧ R = []
  | o, (k, v) :: rest, R =>
      ∃ hv orest R1 R2, o = (k, hv) :: orest ∧ R = R1 ++ R2 ∧
        ReprV s hv v R1 ∧ ReprEnts s orest rest R2
  termination_by _ es _ => sizeOf es
end

theorem ReprV_str (s : Store) (hv : HVal) (x : String) (R : List Nat) :
    ReprV s hv (Val.vstr x) R = (hv = HVal.hstr x ∧ R = []) := by rw [ReprV]

theorem ReprV_num (s : Store) (hv : HVal) (x : Int) (R : List Nat) :
    ReprV s hv (Val.vnum x) R = (hv = HVal.hnum x ∧ R = []) := by rw [ReprV]

theorem ReprV_bool (s : Store) (hv : HVal) (x : Bool) (R : List Nat) :
    ReprV s hv (Val.vbool x) R = (hv = HVal.hbool x ∧ R = []) := by rw [ReprV]

theorem ReprV_null (s : Store) (hv : HVal) (R : List Nat) :
    ReprV s hv Val.vnull R = (hv = HVal.hnull ∧ R = []) := by rw [ReprV]

theorem ReprV_list (s : Store) (hv : HVal) (xs : List Val) (R : List Nat) :
    ReprV s hv (Val.vlist xs) R = False := by rw [ReprV]

theorem ReprV_dict (s : Store) (hv : HVal) (es : List (String × Val))
    (R : List Nat) :
    ReprV s hv (Val.vdict es) R
      = (∃ a o Rs, hv = HVal.href a ∧ read s a = some o ∧ R = a :: Rs ∧
          ReprEnts s o es Rs) := by rw [ReprV]

theorem ReprEnts_nil (s : Store) (o : Obj) (R : List Nat) :
    ReprEnts s o [] R = (o = [] ∧ R = []) := by rw [ReprEnts]

theorem ReprEnts_cons (s : Store) (o : Obj) (k : String) (v : Val)
    (rest : List (String × Val)) (R : List Nat) :
    ReprEnts s o ((k, v) :: rest) R
      = (∃ hv orest R1 R2, o = (k, hv) :: orest ∧ R = R1 ++ R2 ∧
          ReprV s hv v R1 ∧ ReprEnts s orest rest R2) := by rw [ReprEnts]

theorem read_lt_length (s : Store) (a : Nat) (o : Obj)
    (h : read s a = some o) : a < s.length := by
  rw [read] at h
  exact (List.get?_eq_some.1 h).1

theorem read_write_ne (s : Store) (a i : Nat) (o : Obj) (h : i ≠ a) :
    read (write s a o) i = read s i := by
  rw [read, write]
  exact List.get?_set_ne o s (fun h2 => h h2.symm)

theorem read_write_self (s : Store) (a : Nat) (o o0 : Obj)
    (h : read s a = some o0) : read (write s a o) a = some o := by
  rw [read, write, List.get?_set_eq]
  rw [read] at h
  rw [h]
  rfl

theorem length_write (s : Store) (a : Nat) (o : Obj) :
    (write s a o).length = s.length := List.length_set s a o

theorem read_append (s Δ : Store) (i : Nat) (h : i < s.length) :
    read (s ++ Δ) i = read s i := List.get?_append h

/-- Regions of a representation are valid addresses. -/
theorem Repr_region_lt (n : Nat) :
    (∀ (v : Val) (hv : HVal) (R : List Nat) (s : Store), sizeOf v ≤ n →
      ReprV s hv v R → ∀ i ∈ R, i < s.length)
    ∧ (∀ (es : List (String × Val)) (o : Obj) (R : List Nat) (s : Store),
      sizeOf es ≤ n →
      ReprEnts s o es R → ∀ i ∈ R, i < s.length) := by
  induction n with
  | zero =>
      constructor
      · intro v _ _ _ hs; exfalso; cases v <;> simp_arith at hs
      · intro es _ _ _ hs; exfalso; cases es <;> simp_arith at hs
  | succ n ih =>
      constructor
      · intro v hv R s hs hr i hi
        cases v with
        | vstr x => rw [ReprV_str] at hr; obtain ⟨_, rfl⟩ := hr; simp at hi
        | vnum x => rw [ReprV_num] at hr; obtain ⟨_, rfl⟩ := hr; simp at hi
        | vbool x => rw [ReprV_bool] at hr; obtain ⟨_, rfl⟩ := hr; simp at hi
        | vnull => rw [ReprV_null] at hr; obtain ⟨_, rfl⟩ := hr; simp at hi
        | vlist xs => rw [ReprV_list] at hr; exact hr.elim
        | vdict es =>
            rw [ReprV_dict] at hr
            obtain ⟨a, o, Rs, rfl, hread, rfl, hents⟩ := hr
            rcases List.mem_cons.1 hi with rfl | hi2
            · exact read_lt_length s i o hread
            · refine ih.2 es o Rs s ?_ hents i hi2
              have : sizeOf es < sizeOf (Val.vdict es) := by simp_arith
              omega
      · intro es o R s hs hr i hi
        cases es with
        | nil => rw [ReprEnts_nil] at hr; obtain ⟨_, rfl⟩ := hr; simp at hi
        | cons kv rest =>
            obtain ⟨k, v⟩ := kv
            rw [ReprEnts_cons] at hr
            obtain ⟨hv, orest, R1, R2, rfl, rfl, hrv, hre⟩ := hr
            have h1 : sizeOf v < sizeOf ((k, v) :: rest) := by simp_arith
            have h2 : sizeOf rest < sizeOf ((k, v) :: rest) := by simp_arith
            rcases List.mem_append.1 hi with hi1 | hi2
            · exact ih.1 v hv R1 s (by omega) hrv i hi1
            · exact ih.2 rest orest R2 s (by omega) hre i hi2

/-- A representation is stable under store changes outside its region. -/
theorem Repr_frame (n : Nat) :
    (∀ (v : Val) (hv : HVal) (R : List Nat) (s s2 : Store), sizeOf v ≤ n →
      (∀ i ∈ R, read s2 i = read s i) →
      ReprV s hv v R → ReprV s2 hv v R)
    ∧ (∀ (es : List (String × Val)) (o : Obj) (R : List Nat) (s s2 : Store),
      sizeOf es ≤ n →
      (∀ i ∈ R, read s2 i = read s i) →
      ReprEnts s o es R → ReprEnts s2 o es R) := by
  induction n with
  | zero =>
      constructor
      · intro v _ _ _ _ hs; exfalso; cases v <;> simp_arith at hs
      · intro es _ _ _ _ hs; exfalso; cases es <;> simp_arith at hs
  | succ n ih =>
      constructor
      · intro v hv R s s2 hs hag hr
        cases v with
        | vstr x => rw [ReprV_str] at hr ⊢; exact hr
        | vnum x => rw [ReprV_num] at hr ⊢; exact hr
        | vbool x => rw [ReprV_bool] at hr ⊢; exact hr
        | vnull => rw [ReprV_null] at hr ⊢; exact hr
        | vlist xs => rw [ReprV_list] at hr; exact hr.elim
        | vdict es =>
            rw [ReprV_dict] at hr ⊢
            obtain ⟨a, o, Rs, rfl, hread, rfl, hents⟩ := hr
            refine ⟨a, o, Rs, rfl, ?_, rfl, ?_⟩
            · rw [hag a (List.mem_cons_self _ _)]; exact hread
            · refine ih.2 es o Rs s s2 ?_
                (fun i hi => hag i (List.mem_cons_of_mem _ hi)) hents
              have : sizeOf es < sizeOf (Val.vdict es) := by simp_arith
              omega
      · intro es o R s s2 hs hag hr
        cases es with
        | nil => rw [ReprEnts_nil] at hr ⊢; exact hr
        | cons kv rest =>
            obtain ⟨k, v⟩ := kv
            rw [ReprEnts_cons] at hr ⊢
            obtain ⟨hv, orest, R1, R2, rfl, rfl, hrv, hre⟩ := hr
            have h1 : sizeOf v < sizeOf ((k, v) :: rest) := by simp_arith
            have h2 : sizeOf rest < sizeOf ((k, v) :: rest) := by simp_arith
            refine ⟨hv, orest, R1, R2, rfl, rfl, ?_, ?_⟩
            · exact ih.1 v hv R1 s s2 (by omega)
                (fun i hi => hag i (List.mem_append.2 (Or.inl hi))) hrv
            · exact ih.2 rest orest R2 s s2 (by omega)
                (fun i hi => hag i (List.mem_append.2 (Or.inr hi))) hre

/-- Decoding a represented value succeeds given fuel at least its depth. -/
theorem Repr_decode (n : Nat) :
    (∀ (v : Val) (hv : HVal) (R : List Nat) (s : Store) (fuel : Nat),
      sizeOf v ≤ n → depthV v ≤ fuel → ReprV s hv v R →
      decH fuel s hv = some v)
    ∧ (∀ (es : List (String × Val)) (o : Obj) (R : List Nat) (s : Store)
        (fuel : Nat),
      sizeOf es ≤ n → depthEntries es ≤ fuel → ReprEnts s o es R →
      decEntries fuel s o = some es) := by
  induction n with
  | zero =>
      constructor
      · intro v _ _ _ _ hs; exfalso; cases v <;> simp_arith at hs
      · intro es _ _ _ _ hs; exfalso; cases es <;> simp_arith at hs
  | succ n ih =>
      constructor
      · intro v hv R s fuel hs hd hr
        cases v with
        | vstr x => rw [ReprV_str] at hr; rw [hr.1]; simp [decH]
        | vnum x => rw [ReprV_num] at hr; rw [hr.1]; simp [decH]
        | vbool x => rw [ReprV_bool] at hr; rw [hr.1]; simp [decH]
        | vnull => rw [ReprV_null] at hr; rw [hr.1]; simp [decH]
        | vlist xs => rw [ReprV_list] at hr; exact hr.elim
        | vdict es =>
            rw [ReprV_dict] at hr
            obtain ⟨a, o, Rs, rfl, hread, rfl, hents⟩ := hr
            rw [depthV] at hd
            rcases fuel with _ | f
            · omega
            · have hde : depthEntries es ≤ f := by omega
              have hsz : sizeOf es < sizeOf (Val.vdict es) := by simp_arith
              have hdec := ih.2 es o Rs s f (by omega) hde hents
              simp only [decH, hread, hdec, Option.bind_eq_bind,
                Option.some_bind]
      · intro es o R s fuel hs hd hr
        cases es with
        | nil =>
            rw [ReprEnts_nil] at hr
            rw [hr.1]
            simp [decEntries]
        | cons kv rest =>
            obtain ⟨k, v⟩ := kv
            rw [ReprEnts_cons] at hr
            obtain ⟨hv, orest, R1, R2, rfl, rfl, hrv, hre⟩ := hr
            rw [depthEntries] at hd
            have h1 : sizeOf v < sizeOf ((k, v) :: rest) := by simp_arith
            have h2 : sizeOf rest < sizeOf ((k, v) :: rest) := by simp_arith
            have hd1 := ih.1 v hv R1 s fuel (by omega) (by omega) hrv
            have hd2 := ih.2 rest orest R2 s fuel (by omega) (by omega) hre
            simp only [decEntries, hd1, hd2, Option.bind_eq_bind,
              Option.some_bind]

/-- The depth of a represented value is bounded by its region size. -/
theorem Repr_depth_le (n : Nat) :
    (∀ (v : Val) (hv : HVal) (R : List Nat) (s : Store), sizeOf v ≤ n →
      ReprV s hv v R → depthV v ≤ R.length)
    ∧ (∀ (es : List (String × Val)) (o : Obj) (R : List Nat) (s : Store),
      sizeOf es ≤ n →
      ReprEnts s o es R → depthEntries es ≤ R.length) := by
  induction n with
  | zero =>
      constructor
      · intro v _ _ _ hs; exfalso; cases v <;> simp_arith at hs
      · intro es _ _ _ hs; exfalso; cases es <;> simp_arith at hs
  | succ n ih =>
      constructor
      · intro v hv R s hs hr
        cases v with
        | vstr x => simp [depthV]
        | vnum x => simp [depthV]
        | vbool x => simp [depthV]
        | vnull => simp [depthV]
        | vlist xs => rw [ReprV_list] at hr; exact hr.elim
        | vdict es =>
            rw [ReprV_dict] at hr
            obtain ⟨a, o, Rs, rfl, hread, rfl, hents⟩ := hr
            rw [depthV]
            have hsz : sizeOf es < sizeOf (Val.vdict es) := by simp_arith
            have := ih.2 es o Rs s (by omega) hents
            simp only [List.length_cons]
            omega
      · intro es o R s hs hr
        cases es with
        | nil => rw [depthEntries]; omega
        | cons kv rest =>
            obtain ⟨k, v⟩ := kv
            rw [ReprEnts_cons] at hr
            obtain ⟨hv, orest, R1, R2, rfl, rfl, hrv, hre⟩ := hr
            rw [depthEntries]
            have h1 : sizeOf v < sizeOf ((k, v) :: rest) := by simp_arith
            have h2 : sizeOf rest < sizeOf ((k, v) :: rest) := by simp_arith
            have hb1 := ih.1 v hv R1 s (by omega) hrv
            have hb2 := ih.2 rest orest R2 s (by omega) hre
            simp only [List.length_append]
            omega

theorem nodup_length_le (R : List Nat) (n : Nat) (hnd : R.Nodup)
    (hlt : ∀ i ∈ R, i < n) : R.length ≤ n := by
  classical
  calc R.length = R.toFinset.card := (List.toFinset_card_of_nodup hnd).symm
    _ ≤ (Finset.range n).card := by
        refine Finset.card_le_card (fun x hx => ?_)
        rw [Finset.mem_range]
        exact hlt x (List.mem_toFinset.1 hx)
    _ = n := Finset.card_range n

/-- Python `==` on represented heap values agrees with pure `==`. -/
theorem pyEqH_correct (s : Store) (x y : HVal) (vx vy : Val)
    (Rx Ry : List Nat) (hx : ReprV s x vx Rx) (hy : ReprV s y vy Ry)
    (hndx : Rx.Nodup) (hndy : Ry.Nodup) :
    pyEqH s x y = some (pyEq vx vy) := by
  have hltx := (Repr_region_lt (sizeOf vx)).1 vx x Rx s le_rfl hx
  have hlty := (Repr_region_lt (sizeOf vy)).1 vy y Ry s le_rfl hy
  have hdx : depthV vx ≤ s.length + 1 := by
    have h1 := (Repr_depth_le (sizeOf vx)).1 vx x Rx s le_rfl hx
    have h2 := nodup_length_le Rx s.length hndx hltx
    omega
  have hdy : depthV vy ≤ s.length + 1 := by
    have h1 := (Repr_depth_le (sizeOf vy)).1 vy y Ry s le_rfl hy
    have h2 := nodup_length_le Ry s.length hndy hlty
    omega
  have h1 := (Repr_decode (sizeOf vx)).1 vx x Rx s (s.length + 1) le_rfl hdx hx
  have h2 := (Repr_decode (sizeOf vy)).1 vy y Ry s (s.length + 1) le_rfl hdy hy
  simp only [pyEqH, h1, h2, Option.bind_eq_bind, Option.some_bind]
  rfl

theorem lookupH_setKeyH_ne (o : Obj) (k k2 : String) (v : HVal)
    (h : k2 ≠ k) : lookupH (setKeyH o k v) k2 = lookupH o k2 := by
  have hks : ¬ (k = k2) := fun h3 => h h3.symm
  induction o with
  | nil => simp [setKeyH, lookupH, hks]
  | cons hd rest ih =>
      obtain ⟨k1, v1⟩ := hd
      by_cases h1 : k1 = k
      · subst h1
        simp only [setKeyH, if_pos rfl, lookupH]
        rw [if_neg hks, if_neg hks]
      · simp only [setKeyH, if_neg h1, lookupH, ih]

theorem lookupH_append_one_ne (o : Obj) (k k2 : String) (v : HVal)
    (h : k2 ≠ k) : lookupH (o ++ [(k, v)]) k2 = lookupH o k2 := by
  have hks : ¬ (k = k2) := fun h3 => h h3.symm
  induction o with
  | nil => simp [lookupH, hks]
  | cons hd rest ih =>
      obtain ⟨k1, v1⟩ := hd
      by_cases h1 : k1 = k2
      · simp [lookupH, h1]
      · simp only [List.cons_append, lookupH, if_neg h1]
        exact ih

/-- A represented object has exactly the keys of the pure entry list. -/
theorem ReprEnts_keys (es : List (String × Val)) (o : Obj) (R : List Nat)
    (s : Store) (hr : ReprEnts s o es R) :
    o.map Prod.fst = es.map Prod.fst := by
  induction es generalizing o R with
  | nil => rw [ReprEnts_nil] at hr; rw [hr.1]; rfl
  | cons kv rest ih =>
      obtain ⟨k, v⟩ := kv
      rw [ReprEnts_cons] at hr
      obtain ⟨hv, orest, R1, R2, rfl, rfl, hrv, hre⟩ := hr
      simp only [List.map_cons]
      rw [ih orest R2 hre]

/-- Splitting a represented object at a present key: the binding found
    represents a pure value on part of the region, and the remaining
    bindings are represented on the rest, with lookups at other keys
    unchanged. -/
theorem ReprEnts_split (s : Store) (es : List (String × Val)) (o : Obj)
    (R : List Nat) (k : String) (hv : HVal)
    (hr : ReprEnts s o es R) (hfind : lookupH o k = some hv) :
    ∃ v R1 o2 es2 R2, ReprV s hv v R1 ∧ ReprEnts s o2 es2 R2 ∧
      R.Perm (R1 ++ R2) ∧
      (∀ k2, k2 ≠ k → lookupH o2 k2 = lookupH o k2) := by
  induction es generalizing o R with
  | nil =>
      rw [ReprEnts_nil] at hr
      rw [hr.1] at hfind
      simp [lookupH] at hfind
  | cons kv rest ih =>
      obtain ⟨k1, v1⟩ := kv
      rw [ReprEnts_cons] at hr
      obtain ⟨hv1, orest, R1, R2, rfl, rfl, hrv, hre⟩ := hr
      by_cases h1 : k1 = k
      · subst h1
        rw [lookupH, if_pos rfl] at hfind
        cases hfind
        refine ⟨v1, R1, orest, rest, R2, hrv, hre, List.Perm.refl _, ?_⟩
        intro k2 h2
        rw [lookupH, if_neg (fun h3 => h2 h3.symm)]
      · rw [lookupH, if_neg h1] at hfind
        obtain ⟨v, R1x, o2, es2, R2x, hrvx, hrex, hperm, hlk⟩ :=
          ih orest R2 hre hfind
        refine ⟨v, R1x, (k1, hv1) :: o2, (k1, v1) :: es2, R1 ++ R2x,
          hrvx, ?_, ?_, ?_⟩
        · rw [ReprEnts_cons]
          exact ⟨hv1, o2, R1, R2x, rfl, rfl, hrv, hrex⟩
        · have hp1 : (R1 ++ R2).Perm (R1 ++ (R1x ++ R2x)) :=
            List.Perm.append_left R1 hperm
          have hp2 : (R1 ++ (R1x ++ R2x)).Perm (R1x ++ (R1 ++ R2x)) := by
            rw [← List.append_assoc, ← List.append_assoc]
            exact List.Perm.append_right R2x List.perm_append_comm
          exact hp1.trans hp2
        · intro k2 h2
          by_cases h3 : k1 = k2
          · simp [lookupH, h3]
          · simp only [lookupH, if_neg h3]
            exact hlk k2 h2

theorem read_append_self (s : Store) (o : Obj) :
    read (s ++ [o]) s.length = some o := by
  rw [read, List.get?_append_right (Nat.le_refl _), Nat.sub_self]
  rfl

/-- A successful encoding appends a fresh, well-bounded representation of
    the value without touching the existing store. -/
theorem enc_correct (n : Nat) :
    (∀ (v : Val) (s s2 : Store) (hv : HVal), sizeOf v ≤ n →
      encVal v s = some (s2, hv) →
      ∃ R, ReprV s2 hv v R ∧ R.Nodup ∧
        (∀ i ∈ R, s.length ≤ i ∧ i < s2.length) ∧
        s.length ≤ s2.length ∧ (∀ i < s.length, read s2 i = read s i))
    ∧ (∀ (es : List (String × Val)) (s s2 : Store) (o : Obj),
      sizeOf es ≤ n → encEntries es s = some (s2, o) →
      ∃ R, ReprEnts s2 o es R ∧ R.Nodup ∧
        (∀ i ∈ R, s.length ≤ i ∧ i < s2.length) ∧
        s.length ≤ s2.length ∧ (∀ i < s.length, read s2 i = read s i)) := by
  induction n with
  | zero =>
      constructor
      · intro v _ _ _ hs; exfalso; cases v <;> simp_arith at hs
      · intro es _ _ _ hs; exfalso; cases es <;> simp_arith at hs
  | succ n ih =>
      constructor
      · intro v s s2 hv hs henc
        cases v with
        | vstr x =>
            simp only [encVal, Option.some.injEq, Prod.mk.injEq] at henc
            obtain ⟨rfl, rfl⟩ := henc
            exact ⟨[], by rw [ReprV_str]; exact ⟨rfl, rfl⟩, List.nodup_nil,
              by simp, Nat.le_refl _, fun i _ => rfl⟩
        | vnum x =>
            simp only [encVal, Option.some.injEq, Prod.mk.injEq] at henc
            obtain ⟨rfl, rfl⟩ := henc
            exact ⟨[], by rw [ReprV_num]; exact ⟨rfl, rfl⟩, List.nodup_nil,
              by simp, Nat.le_refl _, fun i _ => rfl⟩
        | vbool x =>
            simp only [encVal, Option.some.injEq, Prod.mk.injEq] at henc
            obtain ⟨rfl, rfl⟩ := henc
            exact ⟨[], by rw [ReprV_bool]; exact ⟨rfl, rfl⟩, List.nodup_nil,
              by simp, Nat.le_refl _, fun i _ => rfl⟩
        | vnull =>
            simp only [encVal, Option.some.injEq, Prod.mk.injEq] at henc
            obtain ⟨rfl, rfl⟩ := henc
            exact ⟨[], by rw [ReprV_null]; exact ⟨rfl, rfl⟩, List.nodup_nil,
              by simp, Nat.le_refl _, fun i _ => rfl⟩
        | vlist xs => simp [encVal] at henc
        | vdict es =>
            rw [encVal.eq_def] at henc
            simp only [Option.bind_eq_bind] at henc
            rcases h1 : encEntries es s with _ | ⟨s1, o⟩
            · rw [h1] at henc; simp at henc
            · rw [h1] at henc
              simp only [Option.some_bind, alloc, Option.some.injEq,
                Prod.mk.injEq] at henc
              obtain ⟨rfl, rfl⟩ := henc
              have hsz : sizeOf es < sizeOf (Val.vdict es) := by simp_arith
              obtain ⟨R, hre, hnd, hbd, hle, hfr⟩ :=
                ih.2 es s s1 o (by omega) h1
              have hfr2 : ∀ i < s1.length, read (s1 ++ [o]) i = read s1 i :=
                fun i hi => read_append s1 [o] i hi
              have hre2 : ReprEnts (s1 ++ [o]) o es R :=
                (Repr_frame (sizeOf es)).2 es o R s1 (s1 ++ [o]) le_rfl
                  (fun i hi => hfr2 i (hbd i hi).2) hre
              refine ⟨s1.length :: R, ?_, ?_, ?_, ?_, ?_⟩
              · rw [ReprV_dict]
                exact ⟨s1.length, o, R, rfl, read_append_self s1 o, rfl, hre2⟩
              · exact List.nodup_cons.2
                  ⟨fun hm => Nat.lt_irrefl _ (hbd _ hm).2, hnd⟩
              · intro i hi
                rcases List.mem_cons.1 hi with rfl | hm
                · simp only [List.length_append, List.length_cons,
                    List.length_nil]
                  omega
                · have := hbd i hm
                  simp only [List.length_append, List.length_cons,
                    List.length_nil]
                  omega
              · simp only [List.length_append, List.length_cons,
                  List.length_nil]
                omega
              · intro i hi
                rw [hfr2 i (Nat.lt_of_lt_of_le hi hle), hfr i hi]
      · intro es s s2 o hs henc
        cases es with
        | nil =>
            simp only [encEntries, Option.some.injEq, Prod.mk.injEq] at henc
            obtain ⟨rfl, rfl⟩ := henc
            exact ⟨[], by rw [ReprEnts_nil]; exact ⟨rfl, rfl⟩,
              List.nodup_nil, by simp, Nat.le_refl _, fun i _ => rfl⟩
        | cons kv rest =>
            obtain ⟨k, v⟩ := kv
            rw [encEntries.eq_def] at henc
            simp only [Option.bind_eq_bind] at henc
            rcases h1 : encVal v s with _ | ⟨s1, hv1⟩
            · rw [h1] at henc; simp at henc
            · rw [h1] at henc
              simp only [Option.some_bind] at henc
              rcases h2 : encEntries rest s1 with _ | ⟨s2x, orest⟩
              · rw [h2] at henc; simp at henc
              · rw [h2] at henc
                simp only [Option.some_bind, Option.some.injEq,
                  Prod.mk.injEq] at henc
                obtain ⟨rfl, rfl⟩ := henc
                have hsz1 : sizeOf v < sizeOf ((k, v) :: rest) := by
                  simp_arith
                have hsz2 : sizeOf rest < sizeOf ((k, v) :: rest) := by
                  simp_arith
                obtain ⟨R1, hrv, hnd1, hbd1, hle1, hfr1⟩ :=
                  ih.1 v s s1 hv1 (by omega) h1
                obtain ⟨R2, hre, hnd2, hbd2, hle2, hfr2⟩ :=
                  ih.2 rest s1 s2x orest (by omega) h2
                have hrv2 : ReprV s2x hv1 v R1 :=
                  (Repr_frame (sizeOf v)).1 v hv1 R1 s1 s2x le_rfl
                    (fun i hi => hfr2 i (hbd1 i hi).2) hrv
                refine ⟨R1 ++ R2, ?_, ?_, ?_, ?_, ?_⟩
                · rw [ReprEnts_cons]
                  exact ⟨hv1, orest, R1, R2, rfl, rfl, hrv2, hre⟩
                · refine List.nodup_append.2 ⟨hnd1, hnd2, ?_⟩
                  intro i hi1 hi2
                  have := (hbd1 i hi1).2
                  have := (hbd2 i hi2).1
                  omega
                · intro i hi
                  rcases List.mem_append.1 hi with hm | hm
                  · have := hbd1 i hm
                    omega
                  · have := hbd2 i hm
                    omega
                · omega
                · intro i hi
                  rw [hfr2 i (Nat.lt_of_lt_of_le hi hle1), hfr1 i hi]

theorem ReprV_scalar_region (s : Store) (hv : HVal) (v : Val) (R : List Nat)
    (hr : ReprV s hv v R) (h : ∀ r, hv ≠ HVal.href r) : R = [] := by
  cases v with
  | vstr x => exact (by rw [ReprV_str] at hr; exact hr.2)
  | vnum x => exact (by rw [ReprV_num] at hr; exact hr.2)
  | vbool x => exact (by rw [ReprV_bool] at hr; exact hr.2)
  | vnull => exact (by rw [ReprV_null] at hr; exact hr.2)
  | vlist xs => rw [ReprV_list] at hr; exact hr.elim
  | vdict es =>
      rw [ReprV_dict] at hr
      obtain ⟨a, o, Rs, rfl, _, _, _⟩ := hr
      exact absurd rfl (h a)

/-- `deepcopy` builds a fresh representation of the same value beyond the
    current store, reading but never writing the existing objects. -/
theorem dcopy_correct (n : Nat) :
    (∀ (es : List (String × Val)) (a : Nat) (R : List Nat) (s : Store)
        (fuel : Nat),
      sizeOf (Val.vdict es) ≤ n → depthV (Val.vdict es) ≤ fuel →
      ReprV s (HVal.href a) (Val.vdict es) (a :: R) →
      ∃ s2 a1 R1, dcopy fuel s a = some (s2, a1) ∧
        ReprV s2 (HVal.href a1) (Val.vdict es) (a1 :: R1) ∧
        (a1 :: R1).Nodup ∧ (∀ i ∈ a1 :: R1, s.length ≤ i ∧ i < s2.length) ∧
        s.length ≤ s2.length ∧ (∀ i < s.length, read s2 i = read s i))
    ∧ (∀ (es : List (String × Val)) (o : Obj) (R : List Nat) (s : Store)
        (fuel : Nat),
      sizeOf es ≤ n → depthEntries es ≤ fuel → ReprEnts s o es R →
      ∃ s2 o1 R1, dcopyEntries fuel s o = some (s2, o1) ∧
        ReprEnts s2 o1 es R1 ∧ R1.Nodup ∧
        (∀ i ∈ R1, s.length ≤ i ∧ i < s2.length) ∧
        s.length ≤ s2.length ∧ (∀ i < s.length, read s2 i = read s i)) := by
  induction n with
  | zero =>
      constructor
      · intro es _ _ _ _ hs; exfalso; simp_arith at hs
      · intro es _ _ _ _ hs; exfalso; cases es <;> simp_arith at hs
  | succ n ih =>
      constructor
      · intro es a R s fuel hs hd hr
        rw [ReprV_dict] at hr
        obtain ⟨a0, o, Rs, heq, hread, hReq, hre⟩ := hr
        injection heq with h1
        subst h1
        injection hReq with h2 h3
        subst h3
        rw [depthV] at hd
        rcases fuel with _ | f
        · omega
        · have hsz : sizeOf es < sizeOf (Val.vdict es) := by simp_arith
          obtain ⟨s2, o1, R1, hcopy, hre1, hnd1, hbd1, hle1, hfr1⟩ :=
            ih.2 es o R s f (by omega) (by omega) hre
          refine ⟨s2 ++ [o1], s2.length, R1, ?_, ?_, ?_, ?_, ?_, ?_⟩
          · rw [dcopy.eq_def]
            simp only [hread, hcopy, alloc, Option.bind_eq_bind,
              Option.some_bind]
          · rw [ReprV_dict]
            refine ⟨s2.length, o1, R1, rfl, read_append_self s2 o1, rfl, ?_⟩
            exact (Repr_frame (sizeOf es)).2 es o1 R1 s2 (s2 ++ [o1]) le_rfl
              (fun i hi => read_append s2 [o1] i (hbd1 i hi).2) hre1
          · exact List.nodup_cons.2
              ⟨fun hm => Nat.lt_irrefl _ (hbd1 _ hm).2, hnd1⟩
          · intro i hi
            rcases List.mem_cons.1 hi with rfl | hm
            · simp only [List.length_append, List.length_cons,
                List.length_nil]
              omega
            · have := hbd1 i hm
              simp only [List.length_append, List.length_cons,
                List.length_nil]
              omega
          · simp only [List.length_append, List.length_cons, List.length_nil]
            omega
          · intro i hi
            rw [read_append s2 [o1] i (Nat.lt_of_lt_of_le hi hle1), hfr1 i hi]
      · intro es o R s fuel hs hd hr
        cases es with
        | nil =>
            rw [ReprEnts_nil] at hr
            obtain ⟨rfl, rfl⟩ := hr
            refine ⟨s, [], [], ?_, ?_, List.nodup_nil, by simp,
              Nat.le_refl _, fun i _ => rfl⟩
            · rw [dcopyEntries.eq_def]
            · rw [ReprEnts_nil]; exact ⟨rfl, rfl⟩
        | cons kv rest =>
            obtain ⟨k, v⟩ := kv
            rw [ReprEnts_cons] at hr
            obtain ⟨hv1, orest, R1, R2, rfl, rfl, hrv, hre⟩ := hr
            rw [depthEntries] at hd
            have hsz1 : sizeOf v < sizeOf ((k, v) :: rest) := by simp_arith
            have hsz2 : sizeOf rest < sizeOf ((k, v) :: rest) := by simp_arith
            have hR1lt : ∀ i ∈ R1, i < s.length := by
              intro i hi
              exact (Repr_region_lt (sizeOf v)).1 v hv1 R1 s le_rfl hrv i hi
            have hR2lt : ∀ i ∈ R2, i < s.length := by
              intro i hi
              exact (Repr_region_lt (sizeOf rest)).2 rest orest R2 s le_rfl
                hre i hi
            cases hv1 with
            | href r =>
                have hvd : ∃ es2, v = Val.vdict es2 := by
                  cases v with
                  | vstr x => rw [ReprV_str] at hrv; cases hrv.1
                  | vnum x => rw [ReprV_num] at hrv; cases hrv.1
                  | vbool x => rw [ReprV_bool] at hrv; cases hrv.1
                  | vnull => rw [ReprV_null] at hrv; cases hrv.1
                  | vlist xs => rw [ReprV_list] at hrv; exact hrv.elim
                  | vdict es2 => exact ⟨es2, rfl⟩
                obtain ⟨es2, rfl⟩ := hvd
                rw [ReprV_dict] at hrv
                obtain ⟨r0, ro, Rs1, heq, hreadr, hReq, hrer⟩ := hrv
                injection heq with hq1
                subst hq1
                subst hReq
                have hszd : sizeOf (Val.vdict es2) ≤ n := by omega
                obtain ⟨s1, r1, R1c, hc1, hrv1, hnd1, hbd1, hle1, hfr1⟩ :=
                  ih.1 es2 r Rs1 s fuel hszd (by omega)
                    (by rw [ReprV_dict]; exact ⟨r, ro, Rs1, rfl, hreadr,
                      rfl, hrer⟩)
                have hre_s1 : ReprEnts s1 orest rest R2 :=
                  (Repr_frame (sizeOf rest)).2 rest orest R2 s s1 le_rfl
                    (fun i hi => hfr1 i (hR2lt i hi)) hre
                obtain ⟨s2, orest1, R2c, hc2, hre2, hnd2, hbd2, hle2, hfr2⟩ :=
                  ih.2 rest orest R2 s1 fuel (by omega) (by omega) hre_s1
                have hrv2 : ReprV s2 (HVal.href r1) (Val.vdict es2)
                    (r1 :: R1c) :=
                  (Repr_frame (sizeOf (Val.vdict es2))).1 (Val.vdict es2)
                    (HVal.href r1) (r1 :: R1c) s1 s2 le_rfl
                    (fun i hi => hfr2 i (hbd1 i hi).2) hrv1
                refine ⟨s2, (k, HVal.href r1) :: orest1,
                  (r1 :: R1c) ++ R2c, ?_, ?_, ?_, ?_, ?_, ?_⟩
                · rw [dcopyEntries.eq_def]
                  simp only [hc1, hc2, Option.bind_eq_bind, Option.some_bind]
                · rw [ReprEnts_cons]
                  exact ⟨HVal.href r1, orest1, r1 :: R1c, R2c, rfl, rfl,
                    hrv2, hre2⟩
                · refine List.nodup_append.2 ⟨hnd1, hnd2, ?_⟩
                  intro i hi1 hi2
                  have := (hbd1 i hi1).2
                  have := (hbd2 i hi2).1
                  omega
                · intro i hi
                  rcases List.mem_append.1 hi with hm | hm
                  · have := hbd1 i hm
                    omega
                  · have := hbd2 i hm
                    omega
                · omega
                · intro i hi
                  rw [hfr2 i (Nat.lt_of_lt_of_le hi hle1), hfr1 i hi]
            | hstr x =>
                have hR1 : R1 = [] :=
                  ReprV_scalar_region s (HVal.hstr x) v R1 hrv
                    (fun r h => by cases h)
                subst hR1
                obtain ⟨s2, orest1, R2c, hc2, hre2, hnd2, hbd2, hle2, hfr2⟩ :=
                  ih.2 rest orest R2 s fuel (by omega) (by omega) hre
                have hrv2 : ReprV s2 (HVal.hstr x) v [] :=
                  (Repr_frame (sizeOf v)).1 v (HVal.hstr x) [] s s2 le_rfl
                    (fun i hi => absurd hi (List.not_mem_nil i)) hrv
                refine ⟨s2, (k, HVal.hstr x) :: orest1, R2c, ?_, ?_, hnd2,
                  hbd2, hle2, hfr2⟩
                · rw [dcopyEntries.eq_def]
                  simp only [hc2, Option.bind_eq_bind, Option.some_bind]
                · rw [ReprEnts_cons]
                  exact ⟨HVal.hstr x, orest1, [], R2c, rfl, rfl, hrv2, hre2⟩
            | hnum x =>
                have hR1 : R1 = [] :=
                  ReprV_scalar_region s (HVal.hnum x) v R1 hrv
                    (fun r h => by cases h)
                subst hR1
                obtain ⟨s2, orest1, R2c, hc2, hre2, hnd2, hbd2, hle2, hfr2⟩ :=
                  ih.2 rest orest R2 s fuel (by omega) (by omega) hre
                have hrv2 : ReprV s2 (HVal.hnum x) v [] :=
                  (Repr_frame (sizeOf v)).1 v (HVal.hnum x) [] s s2 le_rfl
                    (fun i hi => absurd hi (List.not_mem_nil i)) hrv
                refine ⟨s2, (k, HVal.hnum x) :: orest1, R2c, ?_, ?_, hnd2,
                  hbd2, hle2, hfr2⟩
                · rw [dcopyEntries.eq_def]
                  simp only [hc2, Option.bind_eq_bind, Option.some_bind]
                · rw [ReprEnts_cons]
                  exact ⟨HVal.hnum x, orest1, [], R2c, rfl, rfl, hrv2, hre2⟩
            | hbool x =>
                have hR1 : R1 = [] :=
                  ReprV_scalar_region s (HVal.hbool x) v R1 hrv
                    (fun r h => by cases h)
                subst hR1
                obtain ⟨s2, orest1, R2c, hc2, hre2, hnd2, hbd2, hle2, hfr2⟩ :=
                  ih.2 rest orest R2 s fuel (by omega) (by omega) hre
                have hrv2 : ReprV s2 (HVal.hbool x) v [] :=
                  (Repr_frame (sizeOf v)).1 v (HVal.hbool x) [] s s2 le_rfl
                    (fun i hi => absurd hi (List.not_mem_nil i)) hrv
                refine ⟨s2, (k, HVal.hbool x) :: orest1, R2c, ?_, ?_, hnd2,
                  hbd2, hle2, hfr2⟩
                · rw [dcopyEntries.eq_def]
                  simp only [hc2, Option.bind_eq_bind, Option.some_bind]
                · rw [ReprEnts_cons]
                  exact ⟨HVal.hbool x, orest1, [], R2c, rfl, rfl, hrv2, hre2⟩
            | hnull =>
                have hR1 : R1 = [] :=
                  ReprV_scalar_region s HVal.hnull v R1 hrv
                    (fun r h => by cases h)
                subst hR1
                obtain ⟨s2, orest1, R2c, hc2, hre2, hnd2, hbd2, hle2, hfr2⟩ :=
                  ih.2 rest orest R2 s fuel (by omega) (by omega) hre
                have hrv2 : ReprV s2 HVal.hnull v [] :=
                  (Repr_frame (sizeOf v)).1 v HVal.hnull [] s s2 le_rfl
                    (fun i hi => absurd hi (List.not_mem_nil i)) hrv
                refine ⟨s2, (k, HVal.hnull) :: orest1, R2c, ?_, ?_, hnd2,
                  hbd2, hle2, hfr2⟩
                · rw [dcopyEntries.eq_def]
                  simp only [hc2, Option.bind_eq_bind, Option.some_bind]
                · rw [ReprEnts_cons]
                  exact ⟨HVal.hnull, orest1, [], R2c, rfl, rfl, hrv2, hre2⟩

theorem du_loop_cons_go (fuel : Nat) (s : Store) (a b ra rb : Nat)
    (k : String) (rest : List (String × HVal)) (ao : Obj)
    (hread : read s a = some ao)
    (hlk : lookupH ao k = some (HVal.href ra)) :
    du_loop fuel s a b ((k, HVal.href rb) :: rest) =
      (du_go fuel s ra rb).bind (fun s2 => du_loop fuel s2 a b rest) := by
  rw [du_loop.eq_def]
  simp only [hread, Option.bind_eq_bind, Option.some_bind, hlk]

theorem du_loop_cons_set (fuel : Nat) (s : Store) (a b : Nat)
    (k : String) (bv : HVal) (rest : List (String × HVal)) (ao : Obj)
    (av : HVal) (hread : read s a = some ao)
    (hlk : lookupH ao k = some av)
    (hnot : ∀ ra rb, av = HVal.href ra → bv = HVal.href rb → False) :
    du_loop fuel s a b ((k, bv) :: rest) =
      (pyEqH s av bv).bind (fun eqb =>
        if eqb then du_loop fuel s a b rest
        else du_loop fuel (write s a (setKeyH ao k bv)) a b rest) := by
  rw [du_loop.eq_def]
  simp only [hread, Option.bind_eq_bind, Option.some_bind, hlk]

theorem du_loop_cons_new (fuel : Nat) (s : Store) (a b : Nat)
    (k : String) (bv : HVal) (rest : List (String × HVal)) (ao : Obj)
    (hread : read s a = some ao)
    (hlk : lookupH ao k = none) :
    du_loop fuel s a b ((k, bv) :: rest) =
      du_loop fuel (write s a (ao ++ [(k, bv)])) a b rest := by
  rw [du_loop.eq_def]
  simp only [hread, Option.bind_eq_bind, Option.some_bind, hlk]

theorem du_loop_nil (fuel : Nat) (s : Store) (a b : Nat) :
    du_loop fuel s a b [] = some s := by
  simp [du_loop]

theorem ReprV_href_inv (s : Store) (r : Nat) (v : Val) (R : List Nat)
    (hr : ReprV s (HVal.href r) v R) :
    ∃ es ro Rs, v = Val.vdict es ∧ R = r :: Rs ∧ read s r = some ro ∧
      ReprEnts s ro es Rs := by
  cases v with
  | vstr x => rw [ReprV_str] at hr; cases hr.1
  | vnum x => rw [ReprV_num] at hr; cases hr.1
  | vbool x => rw [ReprV_bool] at hr; cases hr.1
  | vnull => rw [ReprV_null] at hr; cases hr.1
  | vlist xs => rw [ReprV_list] at hr; exact hr.elim
  | vdict es =>
      rw [ReprV_dict] at hr
      obtain ⟨a0, o, Rs, heq, hread, hReq, hre⟩ := hr
      injection heq with h1
      subst h1
      exact ⟨es, o, Rs, rfl, hReq, hread, hre⟩

/-- Frame property of the `for key in b` loop: assuming the recursive calls
    of `du_go` at this fuel only modify the sub-region they are given, the
    loop only modifies the base object and the region of its still-relevant
    sub-representation.  Addresses below `N` hold the (read-only) override
    structure; the base copy lives at or above `N`. -/
theorem du_loop_frame (N fuel : Nat)
    (hgo : ∀ (s : Store) (a b : Nat) (es_a es_b : List (String × Val))
        (Ra Rb : List Nat),
      depthV (Val.vdict es_b) ≤ fuel →
      WFb (Val.vdict es_b) = true →
      ReprV s (HVal.href a) (Val.vdict es_a) (a :: Ra) →
      ReprV s (HVal.href b) (Val.vdict es_b) (b :: Rb) →
      (a :: Ra).Nodup → (b :: Rb).Nodup →
      (∀ i ∈ a :: Ra, N ≤ i) → (∀ i ∈ b :: Rb, i < N) →
      ∃ s2, du_go fuel s a b = some s2 ∧ s2.length = s.length ∧
        (∀ i, i ∉ a :: Ra → read s2 i = read s i)) :
    ∀ (es_b : List (String × Val)) (bo : List (String × HVal)) (s : Store)
        (a b : Nat) (Rb : List Nat) (ao o_rem : Obj)
        (es_rem : List (String × Val)) (R_rem : List Nat),
      depthEntries es_b ≤ fuel →
      WFbEntries es_b = true →
      (es_b.map Prod.fst).Nodup →
      ReprEnts s bo es_b Rb →
      Rb.Nodup →
      (∀ i ∈ Rb, i < N) →
      read s a = some ao →
      ReprEnts s o_rem es_rem R_rem →
      (a :: R_rem).Nodup →
      (∀ i ∈ a :: R_rem, N ≤ i) →
      (∀ k ∈ bo.map Prod.fst, lookupH ao k = lookupH o_rem k) →
      ∃ s2, du_loop fuel s a b bo = some s2 ∧ s2.length = s.length ∧
        (∀ i, i ∉ a :: R_rem → read s2 i = read s i) := by
  intro es_b
  induction es_b with
  | nil =>
      intro bo s a b Rb ao o_rem es_rem R_rem _ _ _ hreb _ _ _ _ _ _ _
      rw [ReprEnts_nil] at hreb
      rw [hreb.1, du_loop_nil]
      exact ⟨s, rfl, rfl, fun i _ => rfl⟩
  | cons kvb es_rest ih =>
      obtain ⟨k, vb⟩ := kvb
      intro bo s a b Rb ao o_rem es_rem R_rem hd hwf hknd hreb hrbnd hrblt
        hread hrem hrndA hNa hagree
      rw [ReprEnts_cons] at hreb
      obtain ⟨hv_b, borest, Rb1, Rb2, rfl, rfl, hrv_b, hre_rest⟩ := hreb
      obtain ⟨hnd_Rb1, hnd_Rb2, hdisj_b⟩ := List.nodup_append.1 hrbnd
      rw [depthEntries, Nat.max_le] at hd
      rw [WFbEntries, Bool.and_eq_true] at hwf
      simp only [List.map_cons, List.nodup_cons] at hknd
      have hkeys_rest : borest.map Prod.fst = es_rest.map Prod.fst :=
        ReprEnts_keys es_rest borest Rb2 s hre_rest
      have hagk : lookupH ao k = lookupH o_rem k := by
        refine hagree k ?_
        simp
      have hagree_rest : ∀ k2 ∈ borest.map Prod.fst,
          lookupH ao k2 = lookupH o_rem k2 := by
        intro k2 hk2
        refine hagree k2 ?_
        simp [hk2]
      have hk2ne : ∀ k2 ∈ borest.map Prod.fst, k2 ≠ k := by
        intro k2 hk2 hne
        subst hne
        rw [hkeys_rest] at hk2
        exact hknd.1 hk2
      have ha_lt : a < s.length := read_lt_length s a ao hread
      have haN : N ≤ a := hNa a (List.mem_cons_self a R_rem)
      have haR : a ∉ R_rem := (List.nodup_cons.1 hrndA).1
      have hndR : R_rem.Nodup := (List.nodup_cons.1 hrndA).2
      have hRb1lt : ∀ i ∈ Rb1, i < N := fun i hi =>
        hrblt i (List.mem_append_left Rb2 hi)
      have hRb2lt : ∀ i ∈ Rb2, i < N := fun i hi =>
        hrblt i (List.mem_append_right Rb1 hi)
      cases hcase : lookupH o_rem k with
      | none =>
          have hlk : lookupH ao k = none := hagk.trans hcase
          rw [du_loop_cons_new fuel s a b k hv_b borest ao hread hlk]
          have hwrfr : ∀ i, i ≠ a →
              read (write s a (ao ++ [(k, hv_b)])) i = read s i :=
            fun i hi => read_write_ne s a i (ao ++ [(k, hv_b)]) hi
          obtain ⟨s2, heq2, hlen2, hfr2⟩ :=
            ih borest (write s a (ao ++ [(k, hv_b)])) a b Rb2
              (ao ++ [(k, hv_b)]) o_rem es_rem R_rem hd.2 hwf.2 hknd.2
              ((Repr_frame (sizeOf es_rest)).2 es_rest borest Rb2 s _ le_rfl
                (fun i hi => hwrfr i (by have := hRb2lt i hi; omega))
                hre_rest)
              hnd_Rb2 hRb2lt
              (read_write_self s a (ao ++ [(k, hv_b)]) ao hread)
              ((Repr_frame (sizeOf es_rem)).2 es_rem o_rem R_rem s _ le_rfl
                (fun i hi => hwrfr i (fun h => haR (h ▸ hi))) hrem)
              hrndA hNa
              (fun k2 hk2 => by
                rw [lookupH_append_one_ne ao k k2 hv_b (hk2ne k2 hk2)]
                exact hagree_rest k2 hk2)
          refine ⟨s2, heq2, hlen2.trans (length_write s a _), ?_⟩
          intro i hi
          rw [hfr2 i hi, hwrfr i (fun h => hi (h ▸ List.mem_cons_self a _))]
      | some av =>
          have hlk : lookupH ao k = some av := hagk.trans hcase
          obtain ⟨v_k, R1k, o2, es2, R2k, hrvk, hreo2, hperm, hlko2⟩ :=
            ReprEnts_split s es_rem o_rem R_rem k av hrem hcase
          have hndRk : (R1k ++ R2k).Nodup := hperm.nodup hndR
          obtain ⟨hnd1k, hnd2k, hdisj_k⟩ := List.nodup_append.1 hndRk
          have hmem1 : ∀ i ∈ R1k, i ∈ R_rem := fun i hi =>
            hperm.mem_iff.2 (List.mem_append_left R2k hi)
          have hmem2 : ∀ i ∈ R2k, i ∈ R_rem := fun i hi =>
            hperm.mem_iff.2 (List.mem_append_right R1k hi)
          by_cases hbh : ∃ ra rb, av = HVal.href ra ∧ hv_b = HVal.href rb
          · obtain ⟨ra, rb, rfl, rfl⟩ := hbh
            obtain ⟨es_k, rao, Ras, hvk_eq, hR1k_eq, hread_ra, hre_ra⟩ :=
              ReprV_href_inv s ra v_k R1k hrvk
            obtain ⟨eb_k, rbo, Rbs, hvb_eq, hRb1_eq, hread_rb, hre_rb⟩ :=
              ReprV_href_inv s rb vb Rb1 hrv_b
            subst hvk_eq
            subst hvb_eq
            subst hR1k_eq
            subst hRb1_eq
            obtain ⟨s1, hgoeq, hlen1, hfr1⟩ :=
              hgo s ra rb es_k eb_k Ras Rbs hd.1 hwf.1 hrvk hrv_b hnd1k
                hnd_Rb1
                (fun i hi => hNa i (List.mem_cons_of_mem a (hmem1 i hi)))
                hRb1lt
            have haNot1 : a ∉ ra :: Ras := fun h => haR (hmem1 a h)
            obtain ⟨s2, heq2, hlen2, hfr2⟩ :=
              ih borest s1 a b Rb2 ao o2 es2 R2k hd.2 hwf.2 hknd.2
                ((Repr_frame (sizeOf es_rest)).2 es_rest borest Rb2 s s1
                  le_rfl
                  (fun i hi => hfr1 i (fun h => by
                    have h1 := hRb2lt i hi
                    have h2 := hNa i (List.mem_cons_of_mem a (hmem1 i h))
                    omega)) hre_rest)
                hnd_Rb2 hRb2lt
                (by rw [hfr1 a haNot1]; exact hread)
                ((Repr_frame (sizeOf es2)).2 es2 o2 R2k s s1 le_rfl
                  (fun i hi => hfr1 i (fun h => hdisj_k h hi)) hreo2)
                (List.nodup_cons.2 ⟨fun h => haR (hmem2 a h), hnd2k⟩)
                (fun i hi => by
                  rcases List.mem_cons.1 hi with rfl | hm
                  · exact haN
                  · exact hNa i (List.mem_cons_of_mem a (hmem2 i hm)))
                (fun k2 hk2 => by
                  rw [hagree_rest k2 hk2, ← hlko2 k2 (hk2ne k2 hk2)])
            rw [du_loop_cons_go fuel s a b ra rb k borest ao hread hlk]
            rw [hgoeq]
            refine ⟨s2, heq2, hlen2.trans hlen1, ?_⟩
            intro i hi
            have hi_a : i ≠ a := fun h => hi (h ▸ List.mem_cons_self a _)
            have hi_R : i ∉ R_rem := fun h => hi (List.mem_cons_of_mem a h)
            rw [hfr2 i (fun h => by
              rcases List.mem_cons.1 h with rfl | hm
              · exact hi_a rfl
              · exact hi_R (hmem2 i hm))]
            exact hfr1 i (fun h => hi_R (hmem1 i h))
          · have hnot : ∀ ra rb, av = HVal.href ra → hv_b = HVal.href rb →
                False := fun ra rb h1 h2 => hbh ⟨ra, rb, h1, h2⟩
            have hpe : pyEqH s av hv_b = some (pyEq v_k vb) :=
              pyEqH_correct s av hv_b v_k vb R1k Rb1 hrvk hrv_b hnd1k
                hnd_Rb1
            rw [du_loop_cons_set fuel s a b k hv_b borest ao av hread hlk
              hnot, hpe]
            simp only [Option.bind_eq_bind, Option.some_bind]
            cases hpeq : pyEq v_k vb with
            | true =>
                simp only [if_true]
                exact ih borest s a b Rb2 ao o_rem es_rem R_rem hd.2 hwf.2
                  hknd.2 hre_rest hnd_Rb2 hRb2lt hread hrem hrndA hNa
                  hagree_rest
            | false =>
                simp only [Bool.false_eq_true, if_false]
                have hwrfr : ∀ i, i ≠ a →
                    read (write s a (setKeyH ao k hv_b)) i = read s i :=
                  fun i hi => read_write_ne s a i (setKeyH ao k hv_b) hi
                obtain ⟨s2, heq2, hlen2, hfr2⟩ :=
                  ih borest (write s a (setKeyH ao k hv_b)) a b Rb2
                    (setKeyH ao k hv_b) o_rem es_rem R_rem hd.2 hwf.2
                    hknd.2
                    ((Repr_frame (sizeOf es_rest)).2 es_rest borest Rb2 s _
                      le_rfl
                      (fun i hi => hwrfr i (by
                        have := hRb2lt i hi; omega)) hre_rest)
                    hnd_Rb2 hRb2lt
                    (read_write_self s a (setKeyH ao k hv_b) ao hread)
                    ((Repr_frame (sizeOf es_rem)).2 es_rem o_rem R_rem s _
                      le_rfl
                      (fun i hi => hwrfr i (fun h => haR (h ▸ hi))) hrem)
                    hrndA hNa
                    (fun k2 hk2 => by
                      rw [lookupH_setKeyH_ne ao k k2 hv_b (hk2ne k2 hk2)]
                      exact hagree_rest k2 hk2)
                refine ⟨s2, heq2, hlen2.trans (length_write s a _), ?_⟩
                intro i hi
                rw [hfr2 i hi,
                  hwrfr i (fun h => hi (h ▸ List.mem_cons_self a _))]

/-- Frame property of the in-place merge worker: with enough fuel for the
    override's depth, `du_go` succeeds and modifies only the base-side
    region it is given; in particular every address outside that region —
    the override structure and anything else in the store — is untouched. -/
theorem du_go_frame (N : Nat) : ∀ (fuel : Nat),
    ∀ (s : Store) (a b : Nat) (es_a es_b : List (String × Val))
        (Ra Rb : List Nat),
      depthV (Val.vdict es_b) ≤ fuel →
      WFb (Val.vdict es_b) = true →
      ReprV s (HVal.href a) (Val.vdict es_a) (a :: Ra) →
      ReprV s (HVal.href b) (Val.vdict es_b) (b :: Rb) →
      (a :: Ra).Nodup → (b :: Rb).Nodup →
      (∀ i ∈ a :: Ra, N ≤ i) → (∀ i ∈ b :: Rb, i < N) →
      ∃ s2, du_go fuel s a b = some s2 ∧ s2.length = s.length ∧
        (∀ i, i ∉ a :: Ra → read s2 i = read s i) := by
  intro fuel
  induction fuel with
  | zero =>
      intro s a b es_a es_b Ra Rb hd
      rw [depthV] at hd
      omega
  | succ f ihf =>
      intro s a b es_a es_b Ra Rb hd hwf hra hrb hnda hndb hNa hNb
      obtain ⟨a0, ao, Ras, heqa, hreada, hReqa, hrea⟩ := by
        rw [ReprV_dict] at hra; exact hra
      injection heqa with h1
      subst h1
      injection hReqa with h2 h3
      subst h3
      obtain ⟨b0, bo, Rbs, heqb, hreadb, hReqb, hreb⟩ := by
        rw [ReprV_dict] at hrb; exact hrb
      injection heqb with h4
      subst h4
      injection hReqb with h5 h6
      subst h6
      rw [depthV] at hd
      obtain ⟨hknd, hwfe⟩ := WFb_vdict_parts es_b hwf
      obtain ⟨s2, heq2, hlen2, hfr2⟩ :=
        du_loop_frame N f ihf es_b bo s a b Rb ao ao es_a Ra (by omega)
          hwfe hknd hreb ((List.nodup_cons.1 hndb).2)
          (fun i hi => hNb i (List.mem_cons_of_mem b hi)) hreada hrea hnda
          hNa
          (fun k _ => rfl)
      refine ⟨s2, ?_, hlen2, hfr2⟩
      rw [du_go.eq_def]
      simp only [hreadb, Option.bind_eq_bind, Option.some_bind]
      exact heq2

/-- C9: `deep_update(a, b)` (the top-level call, `path is None`) never
    mutates its base argument: on a heap holding fresh encodings of the
    configuration maps `A` (base) and `B` (override, well-formed), the
    call deep-copies the base and updates only the copy, so it succeeds
    and every pre-existing address — the whole representation of the base
    and of the override — reads back unchanged, while the returned root
    is a freshly allocated address. -/
theorem C9_deep_update_no_mutation
    (A B : List (String × Val)) (sA sB : Store) (ha hb : HVal)
    (hA : encVal (Val.vdict A) [] = some (sA, ha))
    (hB : encVal (Val.vdict B) sA = some (sB, hb))
    (hwfB : WFb (Val.vdict B) = true) :
    ∃ a b s3 r, ha = HVal.href a ∧ hb = HVal.href b ∧
      deep_update_impl (sB.length + 1) sB a b = some (s3, r) ∧
      (∀ i, i < sB.length → read s3 i = read sB i) ∧
      sB.length ≤ r ∧ r < s3.length := by
  obtain ⟨RA, hReprA0, hndA, hbdA, hleA, _⟩ :=
    (enc_correct (sizeOf (Val.vdict A))).1 (Val.vdict A) [] sA ha le_rfl hA
  obtain ⟨RB, hReprB0, hndB, hbdB, hleB, hfrB⟩ :=
    (enc_correct (sizeOf (Val.vdict B))).1 (Val.vdict B) sA sB hb le_rfl hB
  have hbdA2 : ∀ i ∈ RA, i < sB.length := by
    intro i hi
    have := (hbdA i hi).2
    omega
  have hReprA : ReprV sB ha (Val.vdict A) RA :=
    (Repr_frame (sizeOf (Val.vdict A))).1 (Val.vdict A) ha RA sA sB le_rfl
      (fun i hi => hfrB i (hbdA i hi).2) hReprA0
  obtain ⟨a, ao, RAs, heqa, hreada, hReqa, hrea⟩ := by
    rw [ReprV_dict] at hReprA; exact hReprA
  obtain ⟨b, bo, RBs, heqb, hreadb, hReqb, hreb⟩ := by
    rw [ReprV_dict] at hReprB0; exact hReprB0
  subst hReqa
  subst hReqb
  have hdA : depthV (Val.vdict A) ≤ sB.length + 1 := by
    have h1 := (Repr_depth_le (sizeOf (Val.vdict A))).1 (Val.vdict A) ha
      (a :: RAs) sB le_rfl hReprA
    have h2 := nodup_length_le (a :: RAs) sB.length hndA hbdA2
    omega
  have hdB : depthV (Val.vdict B) ≤ sB.length + 1 := by
    have h1 := (Repr_depth_le (sizeOf (Val.vdict B))).1 (Val.vdict B) hb
      (b :: RBs) sB le_rfl hReprB0
    have h2 : (b :: RBs).length ≤ sB.length := by
      refine nodup_length_le (b :: RBs) sB.length hndB ?_
      intro i hi
      exact (hbdB i hi).2
    omega
  subst heqa
  subst heqb
  obtain ⟨sC, a1, RC, hc, hReprC, hndC, hbdC, hleC, hfrC⟩ :=
    (dcopy_correct (sizeOf (Val.vdict A))).1 A a RAs sB (sB.length + 1)
      le_rfl hdA hReprA
  have hReprBC : ReprV sC (HVal.href b) (Val.vdict B) (b :: RBs) :=
    (Repr_frame (sizeOf (Val.vdict B))).1 (Val.vdict B) (HVal.href b)
      (b :: RBs) sB sC le_rfl (fun i hi => hfrC i (hbdB i hi).2) hReprB0
  obtain ⟨sD, hgoeq, hlenD, hfrD⟩ :=
    du_go_frame sB.length (sB.length + 1) sC a1 b A B RC RBs hdB hwfB
      hReprC hReprBC hndC hndB
      (fun i hi => (hbdC i hi).1)
      (fun i hi => (hbdB i hi).2)
  refine ⟨a, b, sD, a1, rfl, rfl, ?_, ?_, ?_, ?_⟩
  · rw [deep_update_impl]
    simp only [hc, hgoeq, Option.bind_eq_bind, Option.some_bind]
  · intro i hi
    have hi1 : i ∉ a1 :: RC := fun h => by
      have := (hbdC i h).1
      omega
    rw [hfrD i hi1, hfrC i hi]
  · exact (hbdC a1 (List.mem_cons_self a1 RC)).1
  · have h1 := (hbdC a1 (List.mem_cons_self a1 RC)).2
    omega

theorem C9_deep_update_no_mutation_witness :
    encVal (Val.vdict [("x", Val.vnum 1)]) [] =
      some ([[("x", HVal.hnum 1)]], HVal.href 0) ∧
    encVal (Val.vdict [("x", Val.vnum 2)]) [[("x", HVal.hnum 1)]] =
      some ([[("x", HVal.hnum 1)], [("x", HVal.hnum 2)]], HVal.href 1) ∧
    WFb (Val.vdict [("x", Val.vnum 2)]) = true ∧
    (∃ a b s3 r, HVal.href 0 = HVal.href a ∧ HVal.href 1 = HVal.href b ∧
      deep_update_impl 3 [[("x", HVal.hnum 1)], [("x", HVal.hnum 2)]] a b =
        some (s3, r) ∧
      (∀ i, i < 2 →
        read s3 i = read [[("x", HVal.hnum 1)], [("x", HVal.hnum 2)]] i) ∧
      2 ≤ r ∧ r < s3.length) :=
  ⟨by simp [encVal, encEntries, alloc],
   by simp [encVal, encEntries, alloc],
   by simp [WFb, WFbEntries],
   C9_deep_update_no_mutation [("x", Val.vnum 1)] [("x", Val.vnum 2)]
     [[("x", HVal.hnum 1)]] [[("x", HVal.hnum 1)], [("x", HVal.hnum 2)]]
     (HVal.href 0) (HVal.href 1)
     (by simp [encVal, encEntries, alloc])
     (by simp [encVal, encEntries, alloc])
     (by simp [WFb, WFbEntries])⟩

/-- C2: rendering fails with the hard error reporting both key sets
    exactly when some placeholder key of the template has no entry in the
    configuration map (superfluous configuration keys are projected away
    and never cause this error); when the sets match, substitution
    proceeds, as on the claim's two concrete examples. -/
theorem C2_render_key_completeness (template : String)
    (conf : List (String × Val)) :
    ((∃ ks ps, render template conf
        = Except.error (RenderErr.keySetMismatch ks ps))
      ↔ ∃ k ∈ findPlaceholders template, k ∉ conf.map Prod.fst)
    ∧ render "{x}" [("x", Val.vstr "1")] = Except.ok "1"
    ∧ render "{x}{y}" [("x", Val.vstr "1")]
        = Except.error (RenderErr.keySetMismatch ["x", "y"] ["x"]) := by
  refine ⟨?_, rfl, rfl⟩
  set known := (findPlaceholders template).dedup with hknown
  set vals := (conf.filter (fun kv => known.contains kv.1)).map
    (fun kv => (kv.1, pyStr kv.2)) with hvals
  have hvk : ∀ k : String,
      k ∈ vals.map Prod.fst ↔
        (k ∈ conf.map Prod.fst ∧ k ∈ known) := by
    intro k
    rw [hvals]
    simp only [List.map_map, List.mem_map, Function.comp_apply,
      List.mem_filter]
    constructor
    · rintro ⟨⟨k2, v2⟩, ⟨hm, hc⟩, rfl⟩
      exact ⟨⟨(k2, v2), hm, rfl⟩, by simpa using hc⟩
    · rintro ⟨⟨⟨k2, v2⟩, hm, rfl⟩, hc⟩
      exact ⟨(k2, v2), ⟨hm, by simpa using hc⟩, rfl⟩
  by_cases hC : sameKeySet known (vals.map Prod.fst) = true
  · constructor
    · rintro ⟨ks, ps, h⟩
      simp only [render, ← hknown, ← hvals] at h
      rw [if_neg (not_not_intro hC)] at h
      rcases hf : formatAux vals template.data FmtState.normal with out | e <;>
        rw [hf] at h <;> cases h
    · rintro ⟨k, hk1, hk2⟩
      exfalso
      have hk3 : k ∈ known := by
        rw [hknown]; exact List.mem_dedup.2 hk1
      have h4 : k ∈ vals.map Prod.fst := by
        rw [sameKeySet, Bool.and_eq_true, List.all_eq_true] at hC
        have := hC.1 k hk3
        simpa using this
      exact hk2 ((hvk k).1 h4).1
  · constructor
    · intro _
      have h1 : ¬ (List.all known (fun x =>
          (vals.map Prod.fst).contains x) = true) := by
        intro hall
        apply hC
        rw [sameKeySet, Bool.and_eq_true]
        refine ⟨hall, ?_⟩
        rw [List.all_eq_true]
        intro k hk
        have := ((hvk k).1 (by simpa using hk)).2
        simpa using this
      rw [List.all_eq_true] at h1
      push_neg at h1
      obtain ⟨k, hk, hkc⟩ := h1
      refine ⟨k, List.mem_dedup.1 hk, ?_⟩
      intro hconf
      exact hkc (by simpa using (hvk k).2 ⟨hconf, hk⟩)
    · intro _
      refine ⟨known, vals.map Prod.fst, ?_⟩
      simp only [render, ← hknown, ← hvals]
      rw [if_pos hC]

end MilaLaunch
